import Mathlib

/-!
Verification of the breadcrumb-tree construction algorithm of the
`flask_breadcrumb` package (file `flask_breadcrumb/__init__.py`).

Python strings are modeled as `List Char`; Python dicts (which preserve
insertion order and keep a key's original position on overwrite) are modeled
as association lists with the corresponding insert operation.  Callable
breadcrumb texts are modeled by their resolved string value (the code calls
them exactly once, at materialization time, with no other effect on the
tree).  The `while` loop of the ancestor walk is modeled with explicit fuel;
`walkFuel_stable` proves that `length + 2` fuel is enough, so the fueled
definition coincides with the loop.
-/

namespace FlaskBreadcrumb

/-- Characters of a string literal. -/
def chars (s : String) : List Char := s.data

/-- URLs are Python strings. -/
abbrev Url := List Char

/-- Python `str.rstrip("/")`: remove all trailing slashes. -/
def rstripSlashes (l : List Char) : List Char :=
  (l.reverse.dropWhile (fun c => c = '/')).reverse

/-- Python `str.split("/")`.  Always returns a nonempty list; empty parts
are kept, exactly as in Python. -/
def splitSlash : List Char → List (List Char)
  | [] => [[]]
  | c :: rest =>
    match splitSlash rest with
    | [] => [[]]
    | h :: t => if c = '/' then [] :: h :: t else (c :: h) :: t

/-- Python `"/".join(parts)`. -/
def joinSlash : List (List Char) → List Char
  | [] => []
  | [p] => p
  | p :: q :: rest => p ++ '/' :: joinSlash (q :: rest)

/-- `Breadcrumb._get_parent_url`: strip trailing slashes; empty means root;
a path of at most two `/`-separated parts has parent `/`; otherwise drop the
last part. -/
def getParentUrl (url : Url) : Url :=
  let u := rstripSlashes url
  if u = [] then ['/']
  else
    let parts := splitSlash u
    if parts.length ≤ 2 then ['/']
    else joinSlash parts.dropLast

/-- `Breadcrumb._is_child_of`.  The `&&` chain mirrors the Python
short-circuit (`child_url[parent_len]` is only read when the length test
holds, so indexing is modeled by `drop`/`head?`). -/
def isChildOf (child parent : Url) : Bool :=
  if parent = ['/'] then decide (child ≠ ['/'])
  else
    decide (parent.length + 1 < child.length) &&
    decide (child.take parent.length = parent) &&
    decide ((child.drop parent.length).head? = some '/')

/-- One-pass implementation of `re.sub(r"<[^>]+>", "", url)`.  The second
argument buffers the characters of a candidate match that started at a `<`
(empty when no candidate is open): a following `>` closes the candidate and
deletes it when the buffer holds at least `<` plus one non-`>` character,
while `<>` is not a match (the pattern needs one or more inner characters)
and is emitted verbatim, as `re.sub` does. -/
def stripVarsAux : List Char → List Char → List Char
  | [], buf => buf
  | c :: rest, [] =>
    if c = '<' then stripVarsAux rest ['<']
    else c :: stripVarsAux rest []
  | c :: rest, b :: bs =>
    if c = '>' then
      if bs = [] then (b :: bs) ++ '>' :: stripVarsAux rest []
      else stripVarsAux rest []
    else stripVarsAux rest (b :: bs ++ [c])

/-- `re.sub(r"<[^>]+>", "", url)` of `Breadcrumb._get_routes`. -/
def stripVars (l : List Char) : List Char := stripVarsAux l []

/-- `re.sub(r"//+", "/", url)` of `Breadcrumb._get_routes`: collapse every
run of two or more slashes into one. -/
def collapseSlashes : List Char → List Char
  | [] => []
  | [c] => [c]
  | a :: b :: rest =>
    if a = '/' && b = '/' then collapseSlashes (b :: rest)
    else a :: collapseSlashes (b :: rest)

/-- Trailing-slash removal of `Breadcrumb._get_routes`: `url[:-1]` when the
url ends with a slash and is not the root. -/
def dropTrailingSlash (l : List Char) : List Char :=
  if l ≠ ['/'] ∧ l.getLast? = some '/' then l.dropLast else l

/-- The URL normalization performed per rule in `Breadcrumb._get_routes`. -/
def normalizeUrl (l : List Char) : List Char :=
  dropTrailingSlash (collapseSlashes (stripVars l))

/-- A route of the catalog: normalized url, endpoint name, HTTP methods. -/
structure RouteEntry where
  url : Url
  endpoint : List Char
  methods : List (List Char)
deriving DecidableEq

/-- `Breadcrumb._get_routes` applied to raw `(pattern, endpoint, methods)`
triples taken from the host routing table. -/
def getRoutes (rules : List (List Char × List Char × List (List Char))) :
    List RouteEntry :=
  rules.map (fun r => ⟨normalizeUrl r.1, r.2.1, r.2.2⟩)

/-- Python `str.title()`, restricted to ASCII letters (the only characters
arising in route segments): a letter after a non-letter is uppercased, a
letter after a letter is lowercased. -/
def titleCaseAux : Bool → List Char → List Char
  | _, [] => []
  | prevAlpha, c :: rest =>
    (if c.isAlpha then (if prevAlpha then c.toLower else c.toUpper) else c)
      :: titleCaseAux c.isAlpha rest

/-- Python `str.title()` (ASCII). -/
def titleCase (l : List Char) : List Char := titleCaseAux false l

/-- Python `str.replace(a, b)` for single characters. -/
def replaceChar (a b : Char) (l : List Char) : List Char :=
  l.map (fun c => if c = a then b else c)

/-- `Breadcrumb._generate_default_text`. -/
def generateDefaultText (url : Url) : List Char :=
  let u := rstripSlashes url
  if u = [] then chars "Home"
  else
    let parts := splitSlash u
    let lastPart := (parts.getLast?).getD []
    let t := titleCase (replaceChar '_' ' ' (replaceChar '-' ' ' lastPart))
    if t = [] then chars "Home" else t

/-- The metadata stored per endpoint by the decorator (`Breadcrumb.__call__`).
`text` holds the resolved display text; `order` may be `None`. -/
structure MetaEntry where
  text : List Char
  order : Option Int
  maxDepth : Option Int
deriving DecidableEq

/-- `Breadcrumb.breadcrumb_metadata`, an insertion-ordered dict. -/
abbrev MetaMap := List (List Char × MetaEntry)

/-- Python dict lookup (`d.get(k)`). -/
def dictLookup {α : Type} (k : Url) : List (Url × α) → Option α
  | [] => none
  | (k', v) :: rest => if k' = k then some v else dictLookup k rest

/-- Python dict assignment `d[k] = v`: overwrite in place when the key
exists (keeping its original position), append otherwise. -/
def dictInsert {α : Type} (k : Url) (v : α) : List (Url × α) → List (Url × α)
  | [] => [(k, v)]
  | (k', v') :: rest =>
    if k' = k then (k', v) :: rest else (k', v') :: dictInsert k v rest

/-- The `BreadcrumbItem` objects materialized by `_build_breadcrumb_tree`
(their `children` attribute is never used there, so it is omitted). -/
structure BreadcrumbItem where
  text : List Char
  url : Url
  order : Int
  isCurrentPath : Bool
deriving DecidableEq

/-- The output tree: the nested dicts produced by `_build_breadcrumb_tree`. -/
inductive Node where
  | mk (text : List Char) (url : Url) (order : Int)
       (isCurrentPath : Bool) (children : List Node)

def Node.text : Node → List Char
  | .mk t _ _ _ _ => t

def Node.url : Node → Url
  | .mk _ u _ _ _ => u

def Node.order : Node → Int
  | .mk _ _ o _ _ => o

def Node.isCurrentPath : Node → Bool
  | .mk _ _ _ b _ => b

def Node.children : Node → List Node
  | .mk _ _ _ _ ch => ch

/-- Python's lexicographic string comparison (by code point). -/
def strLe : List Char → List Char → Bool
  | [], _ => true
  | _ :: _, [] => false
  | c :: cs, d :: ds =>
    if c.toNat < d.toNat then true
    else if d.toNat < c.toNat then false
    else strLe cs ds

/-- The comparison key of `children.sort(key=lambda x: (x["order"], x["url"]))`:
order ascending, ties broken lexicographically by url. -/
def nodeLe (a b : Node) : Bool :=
  if a.order < b.order then true
  else if b.order < a.order then false
  else strLe a.url b.url

/-- Stable insertion used to model Python's stable `list.sort`: an element
is placed before the first existing element that is not `≤` it, so elements
with equal keys keep their relative order. -/
def insertNode (x : Node) : List Node → List Node
  | [] => [x]
  | y :: ys => if nodeLe x y then x :: y :: ys else y :: insertNode x ys

/-- Python `list.sort(key=lambda x: (x["order"], x["url"]))` (stable sort;
for a total preorder the stable result is unique, so insertion sort agrees
with Python's timsort). -/
def sortNodes (l : List Node) : List Node := l.foldr insertNode []

/-- Python `s.startswith(pre)`. -/
def listStartsWith : List Char → List Char → Bool
  | [], _ => true
  | _ :: _, [] => false
  | p :: ps, c :: cs => p = c && listStartsWith ps cs

/-- The filter of the first loop of `_build_breadcrumb_tree`: keep routes
whose methods include GET and whose endpoint does not start with "static". -/
def isEligible (r : RouteEntry) : Bool :=
  r.methods.contains (chars "GET") &&
    !(listStartsWith (chars "static") r.endpoint)

/-- `self.breadcrumb_metadata.get(endpoint, {})`. -/
def lookupMetadata (meta : MetaMap) (endpoint : List Char) : Option MetaEntry :=
  match meta.find? (fun kv => kv.1 = endpoint) with
  | some kv => some kv.2
  | none => none

/-- The `BreadcrumbItem` materialized for one route: text from the
endpoint's metadata (falling back to the generated default), order from the
metadata with `None` mapped to 0 (`BreadcrumbItem.__init__`),
`is_current_path` iff the url equals the current path. -/
def itemFor (meta : MetaMap) (r : RouteEntry) (currentPath : Url) :
    BreadcrumbItem :=
  let metaE := lookupMetadata meta r.endpoint
  let text := match metaE with
    | some m => m.text
    | none => generateDefaultText r.url
  let order : Int := match metaE with
    | some m => m.order.getD 0
    | none => 0
  ⟨text, r.url, order, decide (r.url = currentPath)⟩

/-- The first loop of `_build_breadcrumb_tree`: materialize a breadcrumb
item per eligible route.  `is_current_path_map` always stores
`url == current_path` for every key it is later queried at, so it is
inlined as `decide (url = currentPath)`. -/
def buildItems (routes : List RouteEntry) (meta : MetaMap) (currentPath : Url) :
    List (Url × BreadcrumbItem) :=
  routes.foldl (fun acc r =>
    if isEligible r then dictInsert r.url (itemFor meta r currentPath) acc
    else acc) []

/-- Lines 184-190: synthesize a root item when no route registered `/`. -/
def ensureRoot (items : List (Url × BreadcrumbItem)) (currentPath : Url) :
    List (Url × BreadcrumbItem) :=
  if (dictLookup ['/'] items).isSome then items
  else dictInsert ['/'] ⟨chars "Home", ['/'], 0, decide (currentPath = ['/'])⟩ items

/-- The ancestor walk (lines 214-221), with explicit fuel for the `while`
loop.  `parent_url_map.get(path, self._get_parent_url(path))` is
`_get_parent_url(path)` in every case (the map caches exactly that
function), so it is inlined. -/
def walkFuel (inItems : Url → Bool) : Nat → Url → List Url → List Url
  | 0, _, acc => acc
  | fuel + 1, path, acc =>
    if path = ['/'] then acc
    else
      let acc' := if inItems path then acc ++ [path] else acc
      let parent := getParentUrl path
      if parent = path then acc'
      else walkFuel inItems fuel parent acc'

/-- `parent_to_children.get(parent_url, [])` followed by `append` and
re-assignment: append at an existing key, create the key at the end
otherwise. -/
def dictAppendNode (k : Url) (v : Node) :
    List (Url × List Node) → List (Url × List Node)
  | [] => [(k, [v])]
  | (k', vs) :: rest =>
    if k' = k then (k', vs ++ [v]) :: rest
    else (k', vs) :: dictAppendNode k v rest

/-- The grouping loop (lines 251-272): group every non-root item that is
not a strict child of the current path under its parent url.
`is_child_map.get((url, current_path), False)` equals
`_is_child_of(url, current_path)` at every queried key (the map caches that
function for `url ≠ '/' , url ≠ current_path`, and `_is_child_of` is `False`
at `(current_path, current_path)`), so it is inlined. -/
def buildGroups (items : List (Url × BreadcrumbItem)) (currentPath : Url) :
    List (Url × List Node) :=
  items.foldl (fun acc kv =>
    if kv.1 = ['/'] then acc
    else if isChildOf kv.1 currentPath then acc
    else dictAppendNode (getParentUrl kv.1)
      (.mk kv.2.text kv.1 kv.2.order (decide (kv.1 = currentPath)) []) acc) []

/-- Lines 274-276: sort every sibling group by `(order, url)`. -/
def sortGroups (groups : List (Url × List Node)) : List (Url × List Node) :=
  groups.map (fun kv => (kv.1, sortNodes kv.2))

/-- Find the first child with the given url, returning the parts before it,
the child, and the parts after it (the inner `for ... break` of the
assembly loop). -/
def splitAtUrl (p : Url) : List Node → Option (List Node × Node × List Node)
  | [] => none
  | c :: cs =>
    if c.url = p then some ([], c, cs)
    else match splitAtUrl p cs with
      | some (pre, x, post) => some (c :: pre, x, post)
      | none => none

/-- The assembly loop (lines 293-309), written functionally: walk the
root-to-leaf chain; at each step find the chain url among the current
level's children; when found, attach that url's sibling group as its
children (unless the url is the current path or has no group) and descend
into it; when not found, stay at the same level and continue with the rest
of the chain.  The in-place Python mutation becomes replacement of the
found child. -/
def assembleChildren (groups : List (Url × List Node)) (currentPath : Url) :
    List Url → List Node → List Node
  | [], ch => ch
  | p :: rest, ch =>
    match splitAtUrl p ch with
    | none => assembleChildren groups currentPath rest ch
    | some (pre, c, post) =>
      let newKids := match dictLookup p groups with
        | some g => if p ≠ currentPath then g else c.children
        | none => c.children
      pre ++ (Node.mk c.text c.url c.order c.isCurrentPath
        (assembleChildren groups currentPath rest newKids)) :: post

/-- Lines 192-311 of `_build_breadcrumb_tree`, operating on the ensured
item dict: root short-circuit, ancestor walk, unreachable-path fallback,
grouping, sorting and assembly.  The `match ... | none => none` arms
correspond to lookups of `breadcrumb_items["/"]` that cannot fail because
the root item was just ensured. -/
def buildMain (items : List (Url × BreadcrumbItem)) (currentPath : Url) :
    Option Node :=
  if currentPath = ['/'] then
    match dictLookup ['/'] items with
    | some rootItem => some (.mk rootItem.text ['/'] rootItem.order true [])
    | none => none
  else
    let inIt : Url → Bool := fun p => (dictLookup p items).isSome
    let walked := walkFuel inIt (currentPath.length + 2) currentPath []
    let pathToRoot :=
      if (dictLookup ['/'] items).isSome then walked ++ [['/']] else walked
    if pathToRoot = [] then
      match dictLookup currentPath items with
      | some item => some (.mk item.text item.url item.order true [])
      | none => none
    else
      let groups := sortGroups (buildGroups items currentPath)
      match dictLookup ['/'] items with
      | none => none
      | some rootItem =>
        let rootChildren := (dictLookup ['/'] groups).getD []
        let chain := pathToRoot.reverse.drop 1
        some (.mk rootItem.text ['/'] rootItem.order
          (decide ((['/'] : Url) = currentPath))
          (assembleChildren groups currentPath chain rootChildren))

/-- `Breadcrumb._build_breadcrumb_tree`.  The empty dict `{}` returned by
the Python code is modeled as `none`. -/
def buildBreadcrumbTree (routes : List RouteEntry) (meta : MetaMap)
    (currentPath : Url) : Option Node :=
  let items0 := buildItems routes meta currentPath
  if items0 = [] then none
  else buildMain (ensureRoot items0 currentPath) currentPath

/-- `Breadcrumb.get_breadcrumb_tree`: normalize the request path (strip
trailing slashes, empty becomes `/`) and build. -/
def getBreadcrumbTree (routes : List RouteEntry) (meta : MetaMap)
    (requestPath : Url) : Option Node :=
  let currentPath := rstripSlashes requestPath
  let currentPath := if currentPath = [] then ['/'] else currentPath
  buildBreadcrumbTree routes meta currentPath

/-- The wrapper produced by the decorator `Breadcrumb.__call__`: it stores
the endpoint's metadata and returns a function that forwards to the view
unchanged (`*args, **kwargs` modeled as one argument). -/
def breadcrumbCall {α β : Type} (md : MetaMap) (endpointName : List Char)
    (text : List Char) (order maxDepth : Option Int) (f : α → β) :
    MetaMap × (α → β) :=
  (dictInsert endpointName ⟨text, order, maxDepth⟩ md, fun args => f args)

/-- The dummy decorator returned by the module-level `breadcrumb` function
when the extension is not initialized. -/
def dummyDecorator {α β : Type} (f : α → β) : α → β :=
  fun args => f args

/-! ### Observers on the output tree -/

mutual
/-- Does every node of the tree satisfy `p`? -/
def allNodes (p : Node → Bool) : Node → Bool
  | .mk t u o c ch => p (.mk t u o c ch) && allNodesL p ch
/-- Does every node of every tree of the list satisfy `p`? -/
def allNodesL (p : Node → Bool) : List Node → Bool
  | [] => true
  | n :: ns => allNodes p n && allNodesL p ns
end

/-- `allNodes` through the optional result (`{}` has no nodes). -/
def allNodesO (p : Node → Bool) : Option Node → Bool
  | none => true
  | some n => allNodes p n

mutual
/-- Number of nodes with `is_current_path = true` in the tree. -/
def markedCount : Node → Nat
  | .mk _ _ _ b ch => (if b then 1 else 0) + markedCountL ch
def markedCountL : List Node → Nat
  | [] => 0
  | n :: ns => markedCount n + markedCountL ns
end

/-- `markedCount` through the optional result. -/
def markedCountO : Option Node → Nat
  | none => 0
  | some n => markedCount n

mutual
/-- Does some node of the tree carry the url `u`? -/
def treeHasUrl (u : Url) : Node → Bool
  | .mk _ u' _ _ ch => u' = u || treeHasUrlL u ch
def treeHasUrlL (u : Url) : List Node → Bool
  | [] => false
  | n :: ns => treeHasUrl u n || treeHasUrlL u ns
end

/-- Adjacent-pairs formulation of "sorted by `(order, url)`". -/
def chainLe : List Node → Bool
  | [] => true
  | [_] => true
  | a :: b :: rest => nodeLe a b && chainLe (b :: rest)

/-- No two consecutive slashes. -/
def noDoubleSlash : List Char → Bool
  | [] => true
  | [_] => true
  | a :: b :: r => !(a = '/' && b = '/') && noDoubleSlash (b :: r)

/-- Induction over the nested tree type. -/
theorem Node.strongInduction (P : Node → Prop)
    (h : ∀ t u o c ch, (∀ x ∈ ch, P x) → P (.mk t u o c ch)) : (n : Node) → P n
  | .mk t u o c ch => h t u o c ch (fun x _ => Node.strongInduction P h x)
termination_by n => sizeOf n
decreasing_by have := List.sizeOf_lt_of_mem (by assumption : x ∈ ch); simp at *; omega

/-! ### C10: the decorator forwards the view's return value unchanged -/

/-- C10.  For every view function `f` and every argument, the wrapper
returned by the decorator `Breadcrumb.__call__` (and the dummy decorator
returned by the module-level `breadcrumb` when the extension is not
initialized) returns exactly `f` applied to that argument; decorating only
records the `(text, order, max_depth)` metadata under the endpoint name in
`breadcrumb_metadata`. -/
theorem c10_decorator_transparent {α β : Type} (md : MetaMap)
    (endpointName text : List Char) (order maxDepth : Option Int)
    (f : α → β) (a : α) :
    (breadcrumbCall md endpointName text order maxDepth f).2 a = f a ∧
    (breadcrumbCall md endpointName text order maxDepth f).1 =
      dictInsert endpointName ⟨text, order, maxDepth⟩ md ∧
    dummyDecorator f a = f a :=
  ⟨rfl, rfl, rfl⟩

/-! ### C8: URL normalization -/

theorem collapseSlashes_head : ∀ (b : Char) (rest : List Char),
    (collapseSlashes (b :: rest)).head? = some b := by
  intro b rest
  induction rest generalizing b with
  | nil => rfl
  | cons c r ih =>
    show (collapseSlashes (b :: c :: r)).head? = some b
    rw [collapseSlashes]
    by_cases h : b = '/' && c = '/'
    · rw [if_pos h]
      have hb : b = '/' := by
        cases hb1 : decide (b = '/') with
        | false => simp [hb1] at h
        | true => exact of_decide_eq_true hb1
      have hc : c = '/' := by
        cases hc1 : decide (c = '/') with
        | false => simp [hc1] at h
        | true => exact of_decide_eq_true hc1
      rw [ih c, hb, hc]
    · rw [if_neg h]
      rfl

theorem collapseSlashes_noDouble : ∀ l, noDoubleSlash (collapseSlashes l) = true := by
  intro l
  induction l with
  | nil => rfl
  | cons a t ih =>
    cases t with
    | nil => rfl
    | cons b r =>
      show noDoubleSlash (collapseSlashes (a :: b :: r)) = true
      rw [collapseSlashes]
      by_cases h : a = '/' && b = '/'
      · rw [if_pos h]; exact ih
      · rw [if_neg h]
        cases hX : collapseSlashes (b :: r) with
        | nil => rfl
        | cons x xs =>
          have hx : x = b := by
            have h0 := collapseSlashes_head b r
            rw [hX] at h0
            simpa using h0
          subst hx
          show (!(a = '/' && x = '/') && noDoubleSlash (x :: xs)) = true
          have h2 : noDoubleSlash (x :: xs) = true := by
            have h3 := ih
            rw [hX] at h3
            exact h3
          rw [h2]
          simp only [Bool.and_true, Bool.not_eq_true']
          cases hd : (a = '/' && x = '/' : Bool) with
          | false => rfl
          | true => exact absurd hd (by simpa using h)

theorem dropLast_cons_cons (a b : Char) (r : List Char) :
    (a :: b :: r).dropLast = a :: (b :: r).dropLast := rfl

theorem noDouble_tail (a b : Char) (r : List Char)
    (h : noDoubleSlash (a :: b :: r) = true) :
    noDoubleSlash (b :: r) = true ∧ (a = '/' && b = '/') = false := by
  rw [noDoubleSlash, Bool.and_eq_true, Bool.not_eq_true'] at h
  exact ⟨h.2, h.1⟩

theorem noDouble_dropLast : ∀ (p : List Char),
    noDoubleSlash p = true → noDoubleSlash p.dropLast = true := by
  intro p
  induction p with
  | nil => intro _; rfl
  | cons a t ih =>
    intro hnd
    cases t with
    | nil => rfl
    | cons b r =>
      obtain ⟨h1, hpair⟩ := noDouble_tail a b r hnd
      have h2 := ih h1
      rw [dropLast_cons_cons]
      cases r with
      | nil => rfl
      | cons y ys =>
        rw [dropLast_cons_cons] at h2 ⊢
        rw [noDoubleSlash, h2, hpair]
        rfl

theorem getLast?_cons_cons_char (a b : Char) (r : List Char) :
    (a :: b :: r).getLast? = (b :: r).getLast? := by
  rw [List.getLast?_cons_cons]

theorem dropLast_getLast_ne_slash : ∀ (p : List Char),
    noDoubleSlash p = true → p.getLast? = some '/' → p ≠ ['/'] →
    (p.dropLast).getLast? ≠ some '/' := by
  intro p
  induction p with
  | nil => intro _ h; cases h
  | cons a t ih =>
    intro hnd hlast hne
    cases t with
    | nil =>
      have : a = '/' := by simpa using hlast
      exact absurd (by rw [this]) hne
    | cons b r =>
      obtain ⟨hnd', hpair⟩ := noDouble_tail a b r hnd
      have hlast' : (b :: r).getLast? = some '/' := by
        rw [getLast?_cons_cons_char] at hlast
        exact hlast
      rw [dropLast_cons_cons]
      cases r with
      | nil =>
        -- p = [a, b] with b = '/', so a ≠ '/' and dropLast p = [a]
        have hb : b = '/' := by simpa using hlast'
        have ha : a ≠ '/' := by
          intro haeq
          rw [haeq, hb] at hpair
          simp at hpair
        simpa using ha
      | cons y ys =>
        have hbr : (b :: y :: ys) ≠ ['/'] := by simp
        have hind := ih hnd' hlast' hbr
        rw [dropLast_cons_cons]
        rw [getLast?_cons_cons_char]
        exact hind

theorem normalizeUrl_noDouble : ∀ l, noDoubleSlash (normalizeUrl l) = true := by
  intro l
  show noDoubleSlash (dropTrailingSlash (collapseSlashes (stripVars l))) = true
  have hnd : noDoubleSlash (collapseSlashes (stripVars l)) = true :=
    collapseSlashes_noDouble _
  rw [dropTrailingSlash]
  by_cases hc : collapseSlashes (stripVars l) ≠ ['/'] ∧
      (collapseSlashes (stripVars l)).getLast? = some '/'
  · rw [if_pos hc]
    exact noDouble_dropLast _ hnd
  · rw [if_neg hc]
    exact hnd

theorem normalizeUrl_noTrailing : ∀ l,
    normalizeUrl l = ['/'] ∨ (normalizeUrl l).getLast? ≠ some '/' := by
  intro l
  show dropTrailingSlash (collapseSlashes (stripVars l)) = ['/'] ∨
    (dropTrailingSlash (collapseSlashes (stripVars l))).getLast? ≠ some '/'
  have hnd : noDoubleSlash (collapseSlashes (stripVars l)) = true :=
    collapseSlashes_noDouble _
  rw [dropTrailingSlash]
  by_cases hc : collapseSlashes (stripVars l) ≠ ['/'] ∧
      (collapseSlashes (stripVars l)).getLast? = some '/'
  · rw [if_pos hc]
    exact Or.inr (dropLast_getLast_ne_slash _ hnd hc.2 hc.1)
  · rw [if_neg hc]
    rw [Classical.not_and_iff_or_not_not, not_not] at hc
    cases hc with
    | inl h => exact Or.inl h
    | inr h => exact Or.inr h

/-- C8.  URL normalization in the route catalog strips variable-placeholder
segments, collapses consecutive slashes, and removes a trailing slash
unless the result is the root; in particular `"/a//b/"` and `"/a/b"` both
normalize to exactly `"/a/b"` (and a placeholder segment, e.g.
`"<int:id>"`, is stripped).  The function is total by construction (it is a
plain recursive function on the character list), so normalization never
fails on any input string; in addition the output never contains two
consecutive slashes and never ends in a slash unless it is exactly `"/"`. -/
theorem c8_normalize_strips_and_collapses :
    (normalizeUrl (chars "/a//b/") = chars "/a/b" ∧
      normalizeUrl (chars "/a/b") = chars "/a/b" ∧
      normalizeUrl (chars "/user/<int:id>/edit") = chars "/user/edit") ∧
    (∀ l, noDoubleSlash (normalizeUrl l) = true) ∧
    (∀ l, normalizeUrl l = ['/'] ∨ (normalizeUrl l).getLast? ≠ some '/') :=
  ⟨⟨by decide, by decide, by decide⟩, normalizeUrl_noDouble, normalizeUrl_noTrailing⟩

/-! ### C9: termination of the ancestor walk -/

theorem splitSlash_ne_nil : ∀ l, splitSlash l ≠ [] := by
  intro l
  cases l with
  | nil => exact fun h => List.noConfusion h
  | cons c rest =>
    show (match splitSlash rest with
      | [] => [[]]
      | h :: t => if c = '/' then [] :: h :: t else (c :: h) :: t) ≠ []
    cases splitSlash rest with
    | nil => exact fun h => List.noConfusion h
    | cons h t =>
      show (if c = '/' then [] :: h :: t else (c :: h) :: t) ≠ []
      by_cases hc : c = '/'
      · rw [if_pos hc]; exact fun h => List.noConfusion h
      · rw [if_neg hc]; exact fun h => List.noConfusion h

theorem joinSlash_cons (p x : List Char) (xs : List (List Char)) :
    joinSlash (p :: x :: xs) = p ++ '/' :: joinSlash (x :: xs) := rfl

theorem joinSlash_splitSlash : ∀ u, joinSlash (splitSlash u) = u := by
  intro u
  induction u with
  | nil => rfl
  | cons c rest ih =>
    cases hsr : splitSlash rest with
    | nil => exact absurd hsr (splitSlash_ne_nil rest)
    | cons h t =>
      have hj : joinSlash (h :: t) = rest := by rw [← hsr]; exact ih
      have he : splitSlash (c :: rest) =
          if c = '/' then [] :: h :: t else (c :: h) :: t := by
        show (match splitSlash rest with
          | [] => [[]]
          | h :: t => if c = '/' then [] :: h :: t else (c :: h) :: t) = _
        rw [hsr]
      rw [he]
      by_cases hc : c = '/'
      · rw [if_pos hc]
        rw [joinSlash_cons, hj, hc]
        rfl
      · rw [if_neg hc]
        cases t with
        | nil =>
          show joinSlash [c :: h] = c :: rest
          show c :: h = c :: rest
          rw [show h = rest from hj]
        | cons t1 t2 =>
          rw [joinSlash_cons]
          rw [joinSlash_cons] at hj
          rw [List.cons_append, hj]

theorem joinSlash_dropLast_length : ∀ (ps : List (List Char)), 2 ≤ ps.length →
    (joinSlash ps.dropLast).length < (joinSlash ps).length := by
  intro ps
  induction ps with
  | nil => intro h; simp at h
  | cons p t ih =>
    intro h
    cases t with
    | nil => simp at h
    | cons q r =>
      cases r with
      | nil =>
        show (joinSlash [p]).length < (joinSlash [p, q]).length
        rw [joinSlash_cons]
        show p.length < (p ++ '/' :: joinSlash [q]).length
        rw [List.length_append]
        simp
      | cons r1 r2 =>
        have ihh := ih (by simp)
        have e1 : (p :: q :: r1 :: r2).dropLast = p :: (q :: r1 :: r2).dropLast := rfl
        have e2 : (q :: r1 :: r2).dropLast = q :: (r1 :: r2).dropLast := rfl
        rw [e1, e2, joinSlash_cons, joinSlash_cons, ← e2]
        simp only [List.length_append, List.length_cons]
        omega

theorem dropWhile_length_le (p : Char → Bool) : ∀ (l : List Char),
    (List.dropWhile p l).length ≤ l.length := by
  intro l
  induction l with
  | nil => exact Nat.le_refl _
  | cons a t ih =>
    rw [List.dropWhile]
    cases p a with
    | true => exact Nat.le_trans ih (Nat.le_succ _)
    | false => exact Nat.le_refl _

theorem rstripSlashes_length_le (l : List Char) :
    (rstripSlashes l).length ≤ l.length := by
  rw [rstripSlashes, List.length_reverse]
  have := dropWhile_length_le (fun c => c = '/') l.reverse
  rw [List.length_reverse] at this
  exact this

/-- `_get_parent_url` either returns the root or a strictly shorter url. -/
theorem getParentUrl_shrink : ∀ url, getParentUrl url = ['/'] ∨
    (getParentUrl url).length < url.length := by
  intro url
  by_cases h0 : rstripSlashes url = []
  · left; simp [getParentUrl, h0]
  · by_cases h1 : (splitSlash (rstripSlashes url)).length ≤ 2
    · left; simp [getParentUrl, h0, h1]
    · right
      have e : getParentUrl url =
          joinSlash (splitSlash (rstripSlashes url)).dropLast := by
        simp [getParentUrl, h0, h1]
      rw [e]
      have h2 : 2 ≤ (splitSlash (rstripSlashes url)).length := by omega
      calc (joinSlash (splitSlash (rstripSlashes url)).dropLast).length
          < (joinSlash (splitSlash (rstripSlashes url))).length :=
            joinSlash_dropLast_length _ h2
        _ = (rstripSlashes url).length := by rw [joinSlash_splitSlash]
        _ ≤ url.length := rstripSlashes_length_le url

/-- The self-parent guard of the walk can only fire at the root. -/
theorem getParentUrl_eq_self (url : Url) (h : getParentUrl url = url) :
    url = ['/'] := by
  cases getParentUrl_shrink url with
  | inl h2 => rw [← h, h2]
  | inr h2 => rw [h] at h2; omega

theorem walkFuel_root (inItems : Url → Bool) (f : Nat) (acc : List Url)
    (h : 1 ≤ f) : walkFuel inItems f ['/'] acc = acc := by
  cases f with
  | zero => omega
  | succ f' => simp [walkFuel]

theorem walkFuel_stable (inItems : Url → Bool) :
    ∀ (n : Nat) (path : Url) (f : Nat) (acc : List Url), path.length ≤ n →
    path.length + 2 ≤ f →
    walkFuel inItems f path acc = walkFuel inItems (path.length + 2) path acc := by
  intro n
  induction n with
  | zero =>
    intro path f acc hn hf
    obtain ⟨f', rfl⟩ : ∃ f', f = f' + 1 := ⟨f - 1, by omega⟩
    by_cases hp : path = ['/']
    · subst hp; simp at hn
    · show walkFuel inItems (f' + 1) path acc = walkFuel inItems (path.length + 1 + 1) path acc
      rw [walkFuel, walkFuel]
      rw [if_neg hp, if_neg hp]
      by_cases hpp : getParentUrl path = path
      · rw [if_pos hpp, if_pos hpp]
      · rw [if_neg hpp, if_neg hpp]
        cases getParentUrl_shrink path with
        | inl hroot =>
          rw [hroot]
          rw [walkFuel_root inItems f' _ (by omega),
            walkFuel_root inItems (path.length + 1) _ (by omega)]
        | inr hlt => omega
  | succ n ih =>
    intro path f acc hn hf
    obtain ⟨f', rfl⟩ : ∃ f', f = f' + 1 := ⟨f - 1, by omega⟩
    by_cases hp : path = ['/']
    · subst hp
      show walkFuel inItems (f' + 1) ['/'] acc = _
      rw [walkFuel_root inItems (f' + 1) _ (by omega),
        walkFuel_root inItems (['/'].length + 2) _ (by omega)]
    · show walkFuel inItems (f' + 1) path acc = walkFuel inItems (path.length + 1 + 1) path acc
      rw [walkFuel, walkFuel]
      rw [if_neg hp, if_neg hp]
      by_cases hpp : getParentUrl path = path
      · rw [if_pos hpp, if_pos hpp]
      · rw [if_neg hpp, if_neg hpp]
        cases getParentUrl_shrink path with
        | inl hroot =>
          rw [hroot]
          rw [walkFuel_root inItems f' _ (by omega),
            walkFuel_root inItems (path.length + 1) _ (by omega)]
        | inr hlt =>
          rw [ih (getParentUrl path) f' _ (by omega) (by omega),
            ih (getParentUrl path) (path.length + 1) _ (by omega) (by omega)]

/-- C9.  The ancestor-chain walk terminates after finitely many steps: each
step either strictly shortens the path via `_get_parent_url` (or reaches the
root `/` directly), or the walk stops at once when the parent equals the
path; consequently fuel `path.length + 2` is enough, and any larger fuel
gives the same result as the `while` loop. -/
theorem c9_ancestor_walk_terminates :
    (∀ url, getParentUrl url = ['/'] ∨ (getParentUrl url).length < url.length) ∧
    (∀ (inItems : Url → Bool) (fuel : Nat) (path : Url) (acc : List Url),
      path.length + 2 ≤ fuel →
      walkFuel inItems fuel path acc =
        walkFuel inItems (path.length + 2) path acc) :=
  ⟨getParentUrl_shrink, fun inI fuel path acc h =>
    walkFuel_stable inI path.length path fuel acc (Nat.le_refl _) h⟩

/-- Witness for C9 at a concrete input. -/
theorem c9_witness :
    (chars "/a/b/c").length + 2 ≤ 50 ∧
    walkFuel (fun _ => true) 50 (chars "/a/b/c") [] =
      walkFuel (fun _ => true) ((chars "/a/b/c").length + 2) (chars "/a/b/c") [] :=
  ⟨by decide, c9_ancestor_walk_terminates.2 (fun _ => true) 50 (chars "/a/b/c") []
    (by decide)⟩

/-! ### Dictionary and branch-characterization lemmas -/

theorem dictInsert_ne_nil {α : Type} (k : Url) (v : α) :
    ∀ d, dictInsert k v d ≠ [] := by
  intro d
  cases d with
  | nil => exact fun h => List.noConfusion h
  | cons kv rest =>
    rw [dictInsert]
    by_cases h : kv.1 = k
    · rw [if_pos h]; exact fun h => List.noConfusion h
    · rw [if_neg h]; exact fun h => List.noConfusion h

theorem dictLookup_insert_self {α : Type} (k : Url) (v : α) :
    ∀ d, dictLookup k (dictInsert k v d) = some v := by
  intro d
  induction d with
  | nil => simp [dictInsert, dictLookup]
  | cons kv rest ih =>
    rw [dictInsert]
    by_cases h : kv.1 = k
    · rw [if_pos h, dictLookup, if_pos h]
    · rw [if_neg h, dictLookup, if_neg h]
      exact ih

theorem dictLookup_insert_other {α : Type} (k q : Url) (v : α) (hne : k ≠ q) :
    ∀ d, dictLookup q (dictInsert k v d) = dictLookup q d := by
  intro d
  induction d with
  | nil => simp [dictInsert, dictLookup, hne]
  | cons kv rest ih =>
    rw [dictInsert]
    by_cases h : kv.1 = k
    · rw [if_pos h, dictLookup, dictLookup, h]
      rw [if_neg hne, if_neg (h ▸ hne)]
    · rw [if_neg h, dictLookup, dictLookup]
      by_cases h2 : kv.1 = q
      · rw [if_pos h2, if_pos h2]
      · rw [if_neg h2, if_neg h2, ih]

theorem buildItems_foldl_nil (meta : MetaMap) (currentPath : Url) :
    ∀ (routes : List RouteEntry) (acc : List (Url × BreadcrumbItem)),
    routes.foldl (fun acc r =>
      if isEligible r then dictInsert r.url (itemFor meta r currentPath) acc
      else acc) acc = [] →
    acc = [] ∧ ∀ r ∈ routes, isEligible r = false := by
  intro routes
  induction routes with
  | nil => intro acc h; exact ⟨h, fun r hr => absurd hr (List.not_mem_nil r)⟩
  | cons r rs ih =>
    intro acc h
    rw [List.foldl_cons] at h
    obtain ⟨h1, h2⟩ := ih _ h
    by_cases he : isEligible r = true
    · rw [if_pos he] at h1
      exact absurd h1 (dictInsert_ne_nil _ _ _)
    · rw [if_neg he] at h1
      refine ⟨h1, fun x hx => ?_⟩
      cases hx with
      | head =>
        simp only [Bool.not_eq_true] at he
        exact he
      | tail _ hm => exact h2 x hm

theorem buildItems_ne_nil (routes : List RouteEntry) (meta : MetaMap)
    (currentPath : Url) (h : ∃ r ∈ routes, isEligible r = true) :
    buildItems routes meta currentPath ≠ [] := by
  intro hnil
  obtain ⟨r, hr, he⟩ := h
  have := (buildItems_foldl_nil meta currentPath routes [] hnil).2 r hr
  rw [he] at this
  exact Bool.noConfusion this

/-- The synthesized root item (lines 184-190). -/
def defaultRootItem (currentPath : Url) : BreadcrumbItem :=
  ⟨chars "Home", ['/'], 0, decide (currentPath = ['/'])⟩

theorem ensureRoot_lookup_root (items : List (Url × BreadcrumbItem))
    (currentPath : Url) :
    dictLookup ['/'] (ensureRoot items currentPath) =
      if h : (dictLookup ['/'] items).isSome then some ((dictLookup ['/'] items).get h)
      else some (defaultRootItem currentPath) := by
  rw [ensureRoot]
  by_cases h : (dictLookup ['/'] items).isSome
  · rw [if_pos h, dif_pos h]
    exact (Option.some_get h).symm
  · rw [if_neg h, dif_neg h]
    exact dictLookup_insert_self _ _ _

theorem ensureRoot_lookup_isSome (items : List (Url × BreadcrumbItem))
    (currentPath : Url) :
    ∃ ri, dictLookup ['/'] (ensureRoot items currentPath) = some ri := by
  rw [ensureRoot_lookup_root]
  by_cases h : (dictLookup ['/'] items).isSome
  · rw [dif_pos h]; exact ⟨_, rfl⟩
  · rw [dif_neg h]; exact ⟨_, rfl⟩

theorem ensureRoot_lookup_other (items : List (Url × BreadcrumbItem))
    (currentPath q : Url) (hq : q ≠ ['/']) :
    dictLookup q (ensureRoot items currentPath) = dictLookup q items := by
  rw [ensureRoot]
  by_cases h : (dictLookup ['/'] items).isSome
  · rw [if_pos h]
  · rw [if_neg h]
    exact dictLookup_insert_other _ _ _ (Ne.symm hq) _

theorem buildMain_root_sc (items : List (Url × BreadcrumbItem))
    (ri : BreadcrumbItem) (hri : dictLookup ['/'] items = some ri) :
    buildMain items ['/'] = some (.mk ri.text ['/'] ri.order true []) := by
  rw [buildMain, if_pos rfl, hri]

theorem reverse_append_singleton_drop (l : List Url) (x : Url) :
    ((l ++ [x]).reverse).drop 1 = l.reverse := by
  rw [List.reverse_append]
  rfl

theorem buildMain_notRoot (items : List (Url × BreadcrumbItem))
    (currentPath : Url) (ri : BreadcrumbItem) (hcur : currentPath ≠ ['/'])
    (hri : dictLookup ['/'] items = some ri) :
    buildMain items currentPath =
      some (.mk ri.text ['/'] ri.order (decide ((['/'] : Url) = currentPath))
        (assembleChildren (sortGroups (buildGroups items currentPath)) currentPath
          (walkFuel (fun p => (dictLookup p items).isSome)
            (currentPath.length + 2) currentPath []).reverse
          ((dictLookup ['/'] (sortGroups (buildGroups items currentPath))).getD []))) := by
  have hne : (walkFuel (fun p => (dictLookup p items).isSome)
      (currentPath.length + 2) currentPath [] ++ [['/']]) ≠ [] := by
    simp
  rw [buildMain, if_neg hcur, hri]
  simp only [Option.isSome_some, eq_self_iff_true, if_true]
  rw [if_neg hne, reverse_append_singleton_drop]

theorem buildBreadcrumbTree_none_iff (routes : List RouteEntry) (meta : MetaMap)
    (currentPath : Url) :
    buildBreadcrumbTree routes meta currentPath = none ↔
      buildItems routes meta currentPath = [] := by
  constructor
  · intro h
    by_contra hne
    rw [buildBreadcrumbTree] at h
    rw [if_neg hne] at h
    obtain ⟨ri, hri⟩ := ensureRoot_lookup_isSome (buildItems routes meta currentPath) currentPath
    by_cases hc : currentPath = ['/']
    · subst hc
      rw [buildMain_root_sc _ _ hri] at h
      exact Option.noConfusion h
    · rw [buildMain_notRoot _ _ _ hc hri] at h
      exact Option.noConfusion h
  · intro h
    rw [buildBreadcrumbTree, if_pos h]

/-! ### Concrete example material -/

/-- A GET route with the given url and endpoint. -/
def sampleRoute (u e : String) : RouteEntry := ⟨chars u, chars e, [chars "GET"]⟩

/-- `treeHasUrl` through the optional result. -/
def treeHasUrlO (u : Url) : Option Node → Bool
  | none => false
  | some n => treeHasUrl u n

/-! ### C5: root short-circuit -/

/-- C5 counterexample.  The claim quantifies over every route catalog
("regardless of catalog size"), but a catalog with no eligible route (here:
one whose only route is the static asset route, skipped by the
eligibility filter) makes `_build_breadcrumb_tree` return the empty dict
for current path `/`, not a root node. -/
theorem c5_counterexample :
    buildBreadcrumbTree [⟨chars "/static/x", chars "static", [chars "GET"]⟩]
      [] ['/'] = none := by rfl

/-- C5 (amended).  For every route catalog containing at least one eligible
route (GET, endpoint not starting with "static") and every metadata map,
building for current path `/` returns immediately a single root node with
url `/`, `is_current_path = true` and an empty children list — the
home-path tree never contains siblings or descendants.  (With no eligible
route at all the function returns the empty result instead.) -/
theorem c5_root_short_circuit (routes : List RouteEntry) (meta : MetaMap)
    (h : ∃ r ∈ routes, isEligible r = true) :
    ∃ t o, buildBreadcrumbTree routes meta ['/'] =
      some (.mk t ['/'] o true []) := by
  have hne := buildItems_ne_nil routes meta ['/'] h
  obtain ⟨ri, hri⟩ := ensureRoot_lookup_isSome (buildItems routes meta ['/']) ['/']
  refine ⟨ri.text, ri.order, ?_⟩
  rw [buildBreadcrumbTree, if_neg hne]
  exact buildMain_root_sc _ _ hri

/-- Witness for C5 at a concrete catalog. -/
theorem c5_witness :
    (∃ r ∈ [sampleRoute "/" "home", sampleRoute "/a" "a"], isEligible r = true) ∧
    ∃ t o, buildBreadcrumbTree [sampleRoute "/" "home", sampleRoute "/a" "a"]
      [] ['/'] = some (.mk t ['/'] o true []) :=
  ⟨⟨sampleRoute "/" "home", by decide⟩,
    c5_root_short_circuit [sampleRoute "/" "home", sampleRoute "/a" "a"] []
      ⟨sampleRoute "/" "home", by decide⟩⟩

/-! ### C3: skipped-level routes -/

/-- C3 counterexample.  With routes `/`, `/a`, `/a/b/c` registered (and
`/a/b` not registered), building for current path `/a/b/c` does NOT attach
the `/a/b/c` node under `/a`: the result contains no node with url
`/a/b/c` at all, even though the result is a non-empty tree. -/
theorem c3_counterexample :
    treeHasUrlO (chars "/a/b/c")
      (buildBreadcrumbTree
        [sampleRoute "/" "home", sampleRoute "/a" "a", sampleRoute "/a/b/c" "abc"]
        [] (chars "/a/b/c")) = false ∧
    (buildBreadcrumbTree
        [sampleRoute "/" "home", sampleRoute "/a" "a", sampleRoute "/a/b/c" "abc"]
        [] (chars "/a/b/c")).isSome = true := by
  exact ⟨by rfl, by rfl⟩

/-- C3 (amended).  When a route's path skips a level — `/`, `/a`, `/a/b/c`
registered but `/a/b` not — building for `/a/b/c` does not fabricate a
phantom `/a/b` node, but it also does not attach `/a/b/c` under `/a`:
because parent derivation is purely syntactic, `/a/b/c` is grouped under
the unregistered key `/a/b`, which is never attached, so the `/a/b/c` node
is dropped and the tree terminates at `/a` (which is left childless). -/
theorem c3_amended_tree :
    buildBreadcrumbTree
        [sampleRoute "/" "home", sampleRoute "/a" "a", sampleRoute "/a/b/c" "abc"]
        [] (chars "/a/b/c") =
      some (.mk (chars "Home") (chars "/") 0 false
        [.mk (chars "A") (chars "/a") 0 false []]) := by rfl

/-! ### C6: unreachable current path -/

/-- C6 counterexample.  For the catalog whose only route is `/a` and
current path `/x/y` — which is not registered and has no registered
ancestor other than the (synthesized) root — the claim predicts the empty
result; the code instead returns a tree rooted at the synthesized `/` with
the top-level item `/a` as a child (the fallback branch is dead because `/`
is always appended to the ancestor chain). -/
theorem c6_counterexample :
    buildBreadcrumbTree [sampleRoute "/a" "a"] [] (chars "/x/y") =
      some (.mk (chars "Home") (chars "/") 0 false
        [.mk (chars "A") (chars "/a") 0 false []]) := by rfl

/-! ### C6: the unreachable-path branches -/

/-- The syntactic ancestor chain of a path, leaf first, excluding the root:
exactly the paths visited (and collected) by the ancestor walk when every
path counts as known. -/
def synAncestors (p : Url) : List Url :=
  walkFuel (fun _ => true) (p.length + 2) p []

theorem walkFuel_mem_ne_root (inI : Url → Bool) :
    ∀ (f : Nat) (p : Url) (acc : List Url), (∀ q ∈ acc, q ≠ ['/']) →
    ∀ q ∈ walkFuel inI f p acc, q ≠ ['/'] := by
  intro f
  induction f with
  | zero => intro p acc hacc q hq; exact hacc q hq
  | succ f ih =>
    intro p acc hacc q hq
    rw [walkFuel] at hq
    by_cases hp : p = ['/']
    · rw [if_pos hp] at hq; exact hacc q hq
    · rw [if_neg hp] at hq
      have hacc' : ∀ q ∈ (if inI p then acc ++ [p] else acc), q ≠ ['/'] := by
        intro x hx
        by_cases hip : inI p = true
        · rw [if_pos hip] at hx
          rcases List.mem_append.mp hx with hxa | hxp
          · exact hacc x hxa
          · rw [List.mem_singleton.mp hxp]; exact hp
        · rw [if_neg hip] at hx
          exact hacc x hx
      by_cases hpp : getParentUrl p = p
      · rw [if_pos hpp] at hq; exact hacc' q hq
      · rw [if_neg hpp] at hq; exact ih _ _ hacc' q hq

theorem filter_eq_nil_of_false {α : Type} (p : α → Bool) :
    ∀ (l : List α), (∀ a ∈ l, p a = false) → l.filter p = [] := by
  intro l
  induction l with
  | nil => intro _; rfl
  | cons a t ih =>
    intro h
    rw [List.filter_cons, h a (List.mem_cons_self a t)]
    exact ih (fun x hx => h x (List.mem_cons_of_mem a hx))

theorem filter_true_id {α : Type} : ∀ (l : List α),
    l.filter (fun _ => true) = l := by
  intro l
  induction l with
  | nil => rfl
  | cons a t ih => rw [List.filter_cons]; simp only [if_true]; rw [ih]

/-- The walk's collected list is the all-paths walk filtered by membership:
which paths are visited does not depend on the membership test, only which
are collected does. -/
theorem walkFuel_filter :
    ∀ (f : Nat) (inI : Url → Bool) (p : Url) (acc : List Url),
    walkFuel inI f p acc =
      acc ++ (walkFuel (fun _ => true) f p []).filter inI := by
  intro f
  induction f with
  | zero => intro inI p acc; simp [walkFuel]
  | succ f ih =>
    intro inI p acc
    by_cases hp : p = ['/']
    · subst hp; simp [walkFuel]
    · by_cases hpp : getParentUrl p = p
      · cases hip : inI p with
        | true => simp [walkFuel, hp, hpp, hip, List.filter_cons]
        | false => simp [walkFuel, hp, hpp, hip, List.filter_cons]
      · cases hip : inI p with
        | true =>
          simp only [walkFuel, hp, hpp, hip, if_neg, if_pos, if_false, if_true,
            ite_true, ite_false, List.nil_append]
          rw [ih inI (getParentUrl p) (acc ++ [p]),
            ih (fun _ => true) (getParentUrl p) [p]]
          rw [filter_true_id, List.filter_append]
          simp [hip, List.filter_cons, List.append_assoc]
        | false =>
          simp only [walkFuel, hp, hpp, hip, if_neg, if_pos, if_false, if_true,
            ite_true, ite_false, List.nil_append]
          rw [if_neg Bool.false_ne_true]
          rw [ih inI (getParentUrl p) acc,
            ih (fun _ => true) (getParentUrl p) [p]]
          rw [filter_true_id, List.filter_append]
          simp [hip, List.filter_cons]

theorem buildItems_lookup_none (meta : MetaMap) (currentPath q : Url) :
    ∀ (routes : List RouteEntry) (acc : List (Url × BreadcrumbItem)),
    dictLookup q acc = none →
    (∀ r ∈ routes, isEligible r = true → r.url ≠ q) →
    dictLookup q (routes.foldl (fun acc r =>
      if isEligible r then dictInsert r.url (itemFor meta r currentPath) acc
      else acc) acc) = none := by
  intro routes
  induction routes with
  | nil => intro acc hacc _; exact hacc
  | cons r rs ih =>
    intro acc hacc hall
    rw [List.foldl_cons]
    refine ih _ ?_ (fun x hx he => hall x (List.mem_cons_of_mem r hx) he)
    by_cases he : isEligible r = true
    · rw [if_pos he]
      rw [dictLookup_insert_other r.url q _ (hall r (List.mem_cons_self r rs) he)]
      exact hacc
    · rw [if_neg he]; exact hacc

theorem buildItems_lookup_none' (routes : List RouteEntry) (meta : MetaMap)
    (currentPath q : Url)
    (h : ∀ r ∈ routes, isEligible r = true → r.url ≠ q) :
    dictLookup q (buildItems routes meta currentPath) = none := by
  show dictLookup q (routes.foldl (fun acc r =>
    if isEligible r then dictInsert r.url (itemFor meta r currentPath) acc
    else acc) []) = none
  exact buildItems_lookup_none meta currentPath q routes [] rfl h

/-- C6 (amended).  For a current path other than `/` none of whose
syntactic ancestors (itself included, the root excluded) is a registered
eligible url, and a catalog with at least one eligible route, the function
returns a tree rooted at `/` — never the empty result and never just the
matched node: the fallback branch of the source is unreachable because the
root is always appended to the ancestor chain.  The empty result occurs
exactly when the catalog has no eligible route (the function is total, so
no error is ever raised). -/
theorem c6_unreachable_path_fallback (routes : List RouteEntry)
    (meta : MetaMap) (currentPath : Url)
    (hE : ∃ r ∈ routes, isEligible r = true)
    (hcur : currentPath ≠ ['/'])
    (hanc : ∀ q ∈ synAncestors currentPath,
      ∀ r ∈ routes, isEligible r = true → r.url ≠ q) :
    (∃ n, buildBreadcrumbTree routes meta currentPath = some n ∧
      n.url = ['/']) ∧
    (buildBreadcrumbTree routes meta currentPath = none ↔
      buildItems routes meta currentPath = []) := by
  have hne := buildItems_ne_nil routes meta currentPath hE
  obtain ⟨ri, hri⟩ :=
    ensureRoot_lookup_isSome (buildItems routes meta currentPath) currentPath
  refine ⟨?_, buildBreadcrumbTree_none_iff routes meta currentPath⟩
  have hwalk : walkFuel
      (fun p => (dictLookup p (ensureRoot (buildItems routes meta currentPath)
        currentPath)).isSome)
      (currentPath.length + 2) currentPath [] = [] := by
    rw [walkFuel_filter]
    rw [List.nil_append]
    apply filter_eq_nil_of_false
    intro q hq
    have hqr : q ≠ ['/'] :=
      walkFuel_mem_ne_root (fun _ => true) _ currentPath []
        (fun x hx => absurd hx (List.not_mem_nil x)) q hq
    rw [ensureRoot_lookup_other _ _ _ hqr]
    rw [buildItems_lookup_none' routes meta currentPath q (hanc q hq)]
    rfl
  have hb : buildBreadcrumbTree routes meta currentPath =
      some (.mk ri.text ['/'] ri.order
        (decide ((['/'] : Url) = currentPath))
        ((dictLookup ['/'] (sortGroups (buildGroups
          (ensureRoot (buildItems routes meta currentPath) currentPath)
          currentPath))).getD [])) := by
    rw [buildBreadcrumbTree, if_neg hne,
      buildMain_notRoot _ _ _ hcur hri, hwalk]
    rfl
  exact ⟨_, hb, rfl⟩

/-- Witness for C6 at a concrete input: catalog `/a`, current path `/x/y`. -/
theorem c6_witness :
    (∃ r ∈ [sampleRoute "/a" "a"], isEligible r = true) ∧
    (chars "/x/y") ≠ ['/'] ∧
    (∀ q ∈ synAncestors (chars "/x/y"),
      ∀ r ∈ [sampleRoute "/a" "a"], isEligible r = true → r.url ≠ q) ∧
    ((∃ n, buildBreadcrumbTree [sampleRoute "/a" "a"] [] (chars "/x/y") =
        some n ∧ n.url = ['/']) ∧
      (buildBreadcrumbTree [sampleRoute "/a" "a"] [] (chars "/x/y") = none ↔
        buildItems [sampleRoute "/a" "a"] [] (chars "/x/y") = [])) :=
  ⟨⟨sampleRoute "/a" "a", by decide⟩, by decide, by decide,
    c6_unreachable_path_fallback [sampleRoute "/a" "a"] [] (chars "/x/y")
      ⟨sampleRoute "/a" "a", by decide⟩ (by decide) (by decide)⟩

/-! ### Keys, membership and permutation infrastructure -/

/-- The keys of an association-list dict, in insertion order. -/
def dictKeys {α : Type} (d : List (Url × α)) : List Url := d.map (fun kv => kv.1)

theorem mem_dictKeys_insert {α : Type} (k q : Url) (v : α) :
    ∀ d, q ∈ dictKeys (dictInsert k v d) ↔ q = k ∨ q ∈ dictKeys d := by
  intro d
  induction d with
  | nil => simp [dictInsert, dictKeys]
  | cons kv rest ih =>
    rw [dictInsert]
    by_cases h : kv.1 = k
    · rw [if_pos h]
      show q ∈ dictKeys ((kv.1, v) :: rest) ↔ _
      simp only [dictKeys, List.map_cons, List.mem_cons]
      constructor
      · rintro (h1 | h1)
        · exact Or.inl (h1.trans h)
        · exact Or.inr (Or.inr h1)
      · rintro (h1 | h1 | h1)
        · exact Or.inl (h1.trans h.symm)
        · exact Or.inl h1
        · exact Or.inr h1
    · rw [if_neg h]
      simp only [dictKeys, List.map_cons, List.mem_cons] at ih ⊢
      rw [ih]
      tauto

theorem dictKeys_insert_nodup {α : Type} (k : Url) (v : α) :
    ∀ d, (dictKeys d).Nodup → (dictKeys (dictInsert k v d)).Nodup := by
  intro d
  induction d with
  | nil => intro _; simp [dictInsert, dictKeys]
  | cons kv rest ih =>
    intro h
    simp only [dictKeys, List.map_cons, List.nodup_cons] at h
    rw [dictInsert]
    by_cases hk : kv.1 = k
    · rw [if_pos hk]
      show ((kv.1, v) :: rest).map (fun kv => kv.1) |>.Nodup
      simp only [List.map_cons, List.nodup_cons]
      exact h
    · rw [if_neg hk]
      show (kv :: dictInsert k v rest).map (fun kv => kv.1) |>.Nodup
      simp only [List.map_cons, List.nodup_cons]
      refine ⟨?_, ih h.2⟩
      intro hmem
      rcases (mem_dictKeys_insert k kv.1 v rest).mp hmem with h1 | h1
      · exact hk h1
      · exact h.1 h1

theorem buildItems_keys_nodup_aux (meta : MetaMap) (currentPath : Url) :
    ∀ (l : List RouteEntry) (acc : List (Url × BreadcrumbItem)),
    (dictKeys acc).Nodup →
    (dictKeys (l.foldl (fun acc r =>
      if isEligible r then dictInsert r.url (itemFor meta r currentPath) acc
      else acc) acc)).Nodup := by
  intro l
  induction l with
  | nil => intro acc h; exact h
  | cons r rs ih =>
    intro acc h
    rw [List.foldl_cons]
    by_cases he : isEligible r = true
    · rw [if_pos he]
      exact ih _ (dictKeys_insert_nodup _ _ _ h)
    · rw [if_neg he]
      exact ih _ h

theorem buildItems_keys_nodup (routes : List RouteEntry) (meta : MetaMap)
    (currentPath : Url) : (dictKeys (buildItems routes meta currentPath)).Nodup :=
  buildItems_keys_nodup_aux meta currentPath routes [] List.nodup_nil

theorem ensureRoot_keys_nodup (items : List (Url × BreadcrumbItem))
    (currentPath : Url) (h : (dictKeys items).Nodup) :
    (dictKeys (ensureRoot items currentPath)).Nodup := by
  rw [ensureRoot]
  by_cases hs : (dictLookup ['/'] items).isSome
  · rw [if_pos hs]; exact h
  · rw [if_neg hs]; exact dictKeys_insert_nodup _ _ _ h

theorem mem_of_dictLookup {α : Type} (k : Url) (v : α) :
    ∀ d, dictLookup k d = some v → (k, v) ∈ d := by
  intro d
  induction d with
  | nil => intro h; exact Option.noConfusion h
  | cons kv rest ih =>
    intro h
    rw [dictLookup] at h
    by_cases hk : kv.1 = k
    · rw [if_pos hk] at h
      have h2 : kv.2 = v := Option.some_injective _ h
      have hkv : kv = (k, v) := by
        obtain ⟨a, b⟩ := kv
        simp only at hk h2
        rw [hk, h2]
      rw [hkv]
      exact List.mem_cons_self _ _
    · rw [if_neg hk] at h
      exact List.mem_cons_of_mem _ (ih h)

theorem dictLookup_of_mem {α : Type} :
    ∀ (d : List (Url × α)), (dictKeys d).Nodup → ∀ kv ∈ d,
    dictLookup kv.1 d = some kv.2 := by
  intro d
  induction d with
  | nil => intro _ kv hkv; exact absurd hkv (List.not_mem_nil kv)
  | cons hd rest ih =>
    intro hnd kv hkv
    simp only [dictKeys, List.map_cons, List.nodup_cons] at hnd
    cases hkv with
    | head => rw [dictLookup, if_pos rfl]
    | tail _ hm =>
      rw [dictLookup]
      have hne : hd.1 ≠ kv.1 := by
        intro he
        exact hnd.1 (he ▸ List.mem_map_of_mem (fun kv => kv.1) hm)
      rw [if_neg hne]
      exact ih hnd.2 kv hm

theorem insertNode_perm (x : Node) : ∀ l, (insertNode x l).Perm (x :: l) := by
  intro l
  induction l with
  | nil => exact List.Perm.refl _
  | cons y ys ih =>
    rw [insertNode]
    by_cases h : nodeLe x y = true
    · rw [if_pos h]
    · rw [if_neg h]
      exact List.Perm.trans (List.Perm.cons y ih) (List.Perm.swap x y ys)

theorem sortNodes_perm : ∀ l, (sortNodes l).Perm l := by
  intro l
  induction l with
  | nil => exact List.Perm.refl _
  | cons x xs ih =>
    show (insertNode x (sortNodes xs)).Perm (x :: xs)
    exact List.Perm.trans (insertNode_perm x (sortNodes xs)) (List.Perm.cons x ih)

theorem mem_sortNodes (n : Node) (l : List Node) :
    n ∈ sortNodes l ↔ n ∈ l :=
  (sortNodes_perm l).mem_iff

theorem sortGroups_lookup (k : Url) : ∀ (g : List (Url × List Node)),
    dictLookup k (sortGroups g) = (dictLookup k g).map sortNodes := by
  intro g
  induction g with
  | nil => rfl
  | cons kv rest ih =>
    show dictLookup k ((kv.1, sortNodes kv.2) :: sortGroups rest) = _
    rw [dictLookup, dictLookup]
    by_cases h : kv.1 = k
    · rw [if_pos h, if_pos h]; rfl
    · rw [if_neg h, if_neg h]; exact ih

theorem splitAtUrl_eq (p : Url) :
    ∀ (ch pre : List Node) (c : Node) (post : List Node),
    splitAtUrl p ch = some (pre, c, post) →
    ch = pre ++ c :: post ∧ c.url = p := by
  intro ch
  induction ch with
  | nil => intro pre c post h; exact Option.noConfusion h
  | cons x xs ih =>
    intro pre c post h
    rw [splitAtUrl] at h
    by_cases hx : x.url = p
    · rw [if_pos hx] at h
      have he := Option.some_injective _ h
      have h1 : ([] : List Node) = pre := congrArg (fun z => z.1) he
      have h2 : x = c := congrArg (fun z => z.2.1) he
      have h3 : xs = post := congrArg (fun z => z.2.2) he
      subst h2; subst h3
      rw [← h1]
      exact ⟨rfl, hx⟩
    · rw [if_neg hx] at h
      cases hs : splitAtUrl p xs with
      | none => rw [hs] at h; exact Option.noConfusion h
      | some y =>
        rw [hs] at h
        obtain ⟨pre', c', post'⟩ := y
        have he := Option.some_injective _ h
        have h1 : x :: pre' = pre := congrArg (fun z => z.1) he
        have h2 : c' = c := congrArg (fun z => z.2.1) he
        have h3 : post' = post := congrArg (fun z => z.2.2) he
        obtain ⟨ha, hb⟩ := ih pre' c' post' hs
        subst h2; subst h3
        rw [← h1, ha]
        exact ⟨rfl, hb⟩

/-! ### Observer unfolding lemmas -/

theorem allNodes_mk (p : Node → Bool) (t u : List Char) (o : Int) (b : Bool)
    (ch : List Node) :
    allNodes p (.mk t u o b ch) = (p (.mk t u o b ch) && allNodesL p ch) := rfl

theorem allNodesL_cons (p : Node → Bool) (n : Node) (ns : List Node) :
    allNodesL p (n :: ns) = (allNodes p n && allNodesL p ns) := rfl

theorem allNodesO_some (p : Node → Bool) (n : Node) :
    allNodesO p (some n) = allNodes p n := rfl

theorem allNodesL_append (p : Node → Bool) : ∀ (l1 l2 : List Node),
    allNodesL p (l1 ++ l2) = (allNodesL p l1 && allNodesL p l2) := by
  intro l1 l2
  induction l1 with
  | nil => simp [allNodesL]
  | cons n ns ih =>
    rw [List.cons_append, allNodesL_cons, allNodesL_cons, ih, Bool.and_assoc]

theorem allNodesL_of_childless (p : Node → Bool) : ∀ (l : List Node),
    (∀ n ∈ l, p n = true ∧ n.children = []) → allNodesL p l = true := by
  intro l
  induction l with
  | nil => intro _; rfl
  | cons n ns ih =>
    intro h
    obtain ⟨hp, hch⟩ := h n (List.mem_cons_self n ns)
    have htail := ih (fun x hx => h x (List.mem_cons_of_mem n hx))
    obtain ⟨t, u, o, b, ch0⟩ := n
    have : ch0 = [] := hch
    subst this
    rw [allNodesL_cons, allNodes_mk, hp, htail]
    rfl

/-- Preservation of a per-node predicate through the assembly loop: if the
predicate ignores the `children` field, holds on every node of the input
level, and holds on every (childless) node of every sibling group, then it
holds on every node of the assembled forest. -/
theorem assembleChildren_allNodes (p : Node → Bool)
    (gs : List (Url × List Node)) (cur : Url)
    (hp : ∀ t u o b ch1 ch2, p (.mk t u o b ch1) = p (.mk t u o b ch2))
    (hgs : ∀ kv ∈ gs, ∀ n ∈ kv.2, p n = true ∧ n.children = []) :
    ∀ (chain : List Url) (ch : List Node), allNodesL p ch = true →
    allNodesL p (assembleChildren gs cur chain ch) = true := by
  intro chain
  induction chain with
  | nil => intro ch hch; exact hch
  | cons p0 rest ih =>
    intro ch hch
    cases hs : splitAtUrl p0 ch with
    | none =>
      rw [assembleChildren, hs]
      exact ih ch hch
    | some y =>
      obtain ⟨pre, c, post⟩ := y
      obtain ⟨hch_eq, hcurl⟩ := splitAtUrl_eq p0 ch pre c post hs
      subst hch_eq
      rw [allNodesL_append, Bool.and_eq_true] at hch
      obtain ⟨hpre, hcpost⟩ := hch
      rw [allNodesL_cons, Bool.and_eq_true] at hcpost
      obtain ⟨hc, hpost⟩ := hcpost
      rw [assembleChildren, hs]
      obtain ⟨t, u, o, b, ch0⟩ := c
      rw [allNodes_mk, Bool.and_eq_true] at hc
      obtain ⟨hcp, hch0⟩ := hc
      show allNodesL p (pre ++ Node.mk t u o b (assembleChildren gs cur rest _) :: post) = true
      rw [allNodesL_append, allNodesL_cons, allNodes_mk]
      rw [hpre, hpost, hp t u o b _ ch0, hcp]
      have hkids : allNodesL p (match dictLookup p0 gs with
          | some g => if p0 ≠ cur then g else Node.children (.mk t u o b ch0)
          | none => Node.children (.mk t u o b ch0)) = true := by
        cases hg : dictLookup p0 gs with
        | none => exact hch0
        | some g =>
          show allNodesL p
            (if p0 ≠ cur then g else Node.children (.mk t u o b ch0)) = true
          by_cases hpc : p0 ≠ cur
          · rw [if_pos hpc]
            exact allNodesL_of_childless p g
              (hgs (p0, g) (mem_of_dictLookup p0 g gs hg))
          · rw [if_neg hpc]
            exact hch0
      rw [ih _ hkids]
      rfl

theorem dictInsert_mem {α : Type} (k : Url) (v : α) :
    ∀ (d : List (Url × α)) (kv : Url × α), kv ∈ dictInsert k v d →
    kv = (k, v) ∨ kv ∈ d := by
  intro d
  induction d with
  | nil => intro kv h; simp [dictInsert] at h; exact Or.inl h
  | cons hd rest ih =>
    intro kv h
    rw [dictInsert] at h
    by_cases hk : hd.1 = k
    · rw [if_pos hk] at h
      cases h with
      | head =>
        left
        rw [hk]
      | tail _ hm => exact Or.inr (List.mem_cons_of_mem hd hm)
    · rw [if_neg hk] at h
      cases h with
      | head => exact Or.inr (List.mem_cons_self hd rest)
      | tail _ hm =>
        rcases ih kv hm with h1 | h1
        · exact Or.inl h1
        · exact Or.inr (List.mem_cons_of_mem hd h1)

theorem buildItems_mem_aux (meta : MetaMap) (currentPath : Url) :
    ∀ (l : List RouteEntry) (acc : List (Url × BreadcrumbItem)),
    ∀ kv ∈ l.foldl (fun acc r =>
      if isEligible r then dictInsert r.url (itemFor meta r currentPath) acc
      else acc) acc,
    kv ∈ acc ∨ ∃ r ∈ l, isEligible r = true ∧
      kv = (r.url, itemFor meta r currentPath) := by
  intro l
  induction l with
  | nil => intro acc kv h; exact Or.inl h
  | cons r rs ih =>
    intro acc kv h
    rw [List.foldl_cons] at h
    rcases ih _ kv h with h1 | h1
    · by_cases he : isEligible r = true
      · rw [if_pos he] at h1
        rcases dictInsert_mem _ _ _ _ h1 with h2 | h2
        · exact Or.inr ⟨r, List.mem_cons_self r rs, he, h2⟩
        · exact Or.inl h2
      · rw [if_neg he] at h1
        exact Or.inl h1
    · obtain ⟨r', hr', he', hkv⟩ := h1
      exact Or.inr ⟨r', List.mem_cons_of_mem r hr', he', hkv⟩

theorem buildItems_mem (routes : List RouteEntry) (meta : MetaMap)
    (currentPath : Url) :
    ∀ kv ∈ buildItems routes meta currentPath,
    ∃ r ∈ routes, isEligible r = true ∧
      kv = (r.url, itemFor meta r currentPath) := by
  intro kv h
  rcases buildItems_mem_aux meta currentPath routes [] kv h with h1 | h1
  · exact absurd h1 (List.not_mem_nil kv)
  · exact h1

theorem ensureRoot_mem (items : List (Url × BreadcrumbItem))
    (currentPath : Url) :
    ∀ kv ∈ ensureRoot items currentPath,
    kv ∈ items ∨ kv = (['/'], defaultRootItem currentPath) := by
  intro kv h
  rw [ensureRoot] at h
  by_cases hs : (dictLookup ['/'] items).isSome
  · rw [if_pos hs] at h; exact Or.inl h
  · rw [if_neg hs] at h
    rcases dictInsert_mem _ _ _ _ h with h1 | h1
    · exact Or.inr h1
    · exact Or.inl h1

/-- Property of every node of every sibling group produced by the grouping
loop: it is the rendering of an item of the dict, childless, with
`is_current_path` recomputed, its url is not the root and not a strict
child of the current path, and it is grouped under its syntactic parent. -/
theorem buildGroups_prop (items : List (Url × BreadcrumbItem))
    (currentPath : Url) :
    ∀ kv ∈ buildGroups items currentPath, ∀ n ∈ kv.2,
    (∃ u it, (u, it) ∈ items ∧
      n = Node.mk it.text u it.order (decide (u = currentPath)) []) ∧
    n.url ≠ ['/'] ∧ isChildOf n.url currentPath = false ∧
    getParentUrl n.url = kv.1 := by
  have happ : ∀ (k : Url) (v : Node) (d : List (Url × List Node))
      (P : Url → Node → Prop),
      (∀ kv ∈ d, ∀ n ∈ kv.2, P kv.1 n) → P k v →
      ∀ kv ∈ dictAppendNode k v d, ∀ n ∈ kv.2, P kv.1 n := by
    intro k v d P
    induction d with
    | nil =>
      intro _ hv kv h n hn
      cases h with
      | head =>
        cases hn with
        | head => exact hv
        | tail _ hm => exact absurd hm (List.not_mem_nil n)
      | tail _ hm => exact absurd hm (List.not_mem_nil kv)
    | cons hd rest ih =>
      intro hall hv kv h n hn
      rw [dictAppendNode] at h
      by_cases hk : hd.1 = k
      · rw [if_pos hk] at h
        cases h with
        | head =>
          simp only at hn
          rcases List.mem_append.mp hn with h1 | h1
          · exact hall hd (List.mem_cons_self hd rest) n h1
          · rw [List.mem_singleton.mp h1, hk]
            exact hv
        | tail _ hm =>
          exact hall kv (List.mem_cons_of_mem hd hm) n hn
      · rw [if_neg hk] at h
        cases h with
        | head => exact hall hd (List.mem_cons_self hd rest) n hn
        | tail _ hm =>
          exact ih (fun x hx => hall x (List.mem_cons_of_mem hd hx)) hv kv hm n hn
  -- fold invariant over the items list
  suffices hgen : ∀ (l : List (Url × BreadcrumbItem))
      (acc : List (Url × List Node)),
      (∀ x ∈ l, x ∈ items) →
      (∀ kv ∈ acc, ∀ n ∈ kv.2,
        (∃ u it, (u, it) ∈ items ∧
          n = Node.mk it.text u it.order (decide (u = currentPath)) []) ∧
        n.url ≠ ['/'] ∧ isChildOf n.url currentPath = false ∧
        getParentUrl n.url = kv.1) →
      ∀ kv ∈ l.foldl (fun acc kv =>
        if kv.1 = ['/'] then acc
        else if isChildOf kv.1 currentPath then acc
        else dictAppendNode (getParentUrl kv.1)
          (.mk kv.2.text kv.1 kv.2.order (decide (kv.1 = currentPath)) []) acc)
        acc, ∀ n ∈ kv.2,
      (∃ u it, (u, it) ∈ items ∧
        n = Node.mk it.text u it.order (decide (u = currentPath)) []) ∧
      n.url ≠ ['/'] ∧ isChildOf n.url currentPath = false ∧
      getParentUrl n.url = kv.1 by
    intro kv h
    exact hgen items [] (fun x hx => hx) (fun kv h => absurd h (List.not_mem_nil kv)) kv h
  intro l
  induction l with
  | nil =>
    intro acc _ hacc kv h
    exact hacc kv h
  | cons x xs ih =>
    intro acc hl hacc kv h
    rw [List.foldl_cons] at h
    refine ih _ (fun y hy => hl y (List.mem_cons_of_mem x hy)) ?_ kv h
    by_cases h1 : x.1 = ['/']
    · rw [if_pos h1]; exact hacc
    · rw [if_neg h1]
      by_cases h2 : isChildOf x.1 currentPath = true
      · rw [if_pos h2]; exact hacc
      · rw [if_neg h2]
        refine happ (getParentUrl x.1)
          (.mk x.2.text x.1 x.2.order (decide (x.1 = currentPath)) []) acc
          (fun k n =>
            (∃ u it, (u, it) ∈ items ∧
              n = Node.mk it.text u it.order (decide (u = currentPath)) []) ∧
            n.url ≠ ['/'] ∧ isChildOf n.url currentPath = false ∧
            getParentUrl n.url = k)
          hacc ?_
        refine ⟨⟨x.1, x.2, ?_, rfl⟩, h1, ?_, rfl⟩
        · have hx := hl x (List.mem_cons_self x xs)
          obtain ⟨a, b⟩ := x
          exact hx
        · simp only [Bool.not_eq_true] at h2
          exact h2

/-! ### C1: descendant pruning -/

/-- A canonical (normalized) url: the root, or a url with no trailing
slash — exactly the shape produced by `_get_routes`
(`normalizeUrl_noTrailing`). -/
abbrev normalizedUrlP (u : Url) : Prop := u = ['/'] ∨ u.getLast? ≠ some '/'

theorem listStartsWith_iff : ∀ (pre s : List Char),
    listStartsWith pre s = true ↔ ∃ t, s = pre ++ t := by
  intro pre
  induction pre with
  | nil => intro s; simp [listStartsWith]
  | cons p ps ih =>
    intro s
    cases s with
    | nil =>
      simp only [listStartsWith]
      constructor
      · intro h; exact Bool.noConfusion h
      · rintro ⟨t, ht⟩; exact List.noConfusion ht
    | cons c cs =>
      rw [listStartsWith, Bool.and_eq_true, decide_eq_true_iff, ih cs]
      constructor
      · rintro ⟨hpc, t, ht⟩
        exact ⟨t, by rw [hpc, ht]; rfl⟩
      · rintro ⟨t, ht⟩
        have h1 : c = p := (List.cons.injEq _ _ _ _ ▸ ht).1
        have h2 : cs = ps ++ t := (List.cons.injEq _ _ _ _ ▸ ht).2
        exact ⟨h1.symm, t, h2⟩

theorem listStartsWith_length : ∀ (pre s : List Char),
    listStartsWith pre s = true → pre.length ≤ s.length := by
  intro pre s h
  obtain ⟨t, ht⟩ := (listStartsWith_iff pre s).mp h
  rw [ht, List.length_append]
  omega

theorem startsWith_root_false (cur : Url) (hcur : cur ≠ []) :
    listStartsWith (cur ++ ['/']) ['/'] = false := by
  by_contra h
  rw [Bool.not_eq_false] at h
  have hlen := listStartsWith_length _ _ h
  rw [List.length_append] at hlen
  cases cur with
  | nil => exact hcur rfl
  | cons a t => simp at hlen

/-- A normalized non-root url that is not an `_is_child_of`-child of the
current path does not start with `currentPath + "/"`. -/
theorem not_descendant_of_not_child (u cur : Url) (hnorm : normalizedUrlP u)
    (hu : u ≠ ['/']) (hchild : isChildOf u cur = false) :
    listStartsWith (cur ++ ['/']) u = false := by
  by_contra hc
  rw [Bool.not_eq_false] at hc
  obtain ⟨t, ht⟩ := (listStartsWith_iff _ _).mp hc
  rw [List.append_assoc] at ht
  by_cases hroot : cur = ['/']
  · rw [isChildOf, if_pos hroot, decide_eq_false_iff_not, not_not] at hchild
    exact hu hchild
  · cases t with
    | nil =>
      -- u = cur ++ ['/'] would end in a slash
      rcases hnorm with h1 | h1
      · exact hu h1
      · rw [ht] at h1
        exact h1 (List.getLast?_concat cur)
    | cons t0 t1 =>
      have : isChildOf u cur = true := by
        rw [isChildOf, if_neg hroot]
        rw [Bool.and_eq_true, Bool.and_eq_true]
        refine ⟨⟨?_, ?_⟩, ?_⟩
        · rw [decide_eq_true_iff, ht, List.length_append]
          simp only [List.length_cons, List.singleton_append]
          omega
        · rw [decide_eq_true_iff, ht]
          exact List.take_left cur _
        · rw [decide_eq_true_iff, ht, List.drop_left cur _]
          rfl
      rw [this] at hchild
      exact Bool.noConfusion hchild

/-- All sibling-group nodes of the sorted groups satisfy the grouping
invariants (sorting only permutes them). -/
theorem sortedGroups_nodes (items : List (Url × BreadcrumbItem)) (cur : Url) :
    ∀ kv ∈ sortGroups (buildGroups items cur), ∀ n ∈ kv.2,
    (∃ u it, (u, it) ∈ items ∧
      n = Node.mk it.text u it.order (decide (u = cur)) []) ∧
    n.url ≠ ['/'] ∧ isChildOf n.url cur = false ∧
    getParentUrl n.url = kv.1 := by
  intro kv hkv n hn
  obtain ⟨a, ha, heq⟩ := List.mem_map.mp hkv
  subst heq
  have hn' : n ∈ a.2 := (mem_sortNodes n a.2).mp hn
  exact buildGroups_prop items cur a ha n hn'

/-- The url of an item of the ensured dict that came from the catalog is a
route url; the only other entry is the synthesized root. -/
theorem items_url_normalized (routes : List RouteEntry) (meta : MetaMap)
    (cur u : Url) (it : BreadcrumbItem)
    (hnorm : ∀ r ∈ routes, isEligible r = true → normalizedUrlP r.url)
    (hmem : (u, it) ∈ ensureRoot (buildItems routes meta cur) cur) :
    normalizedUrlP u := by
  rcases ensureRoot_mem _ _ _ hmem with h1 | h1
  · obtain ⟨r, hr, he, hkv⟩ := buildItems_mem routes meta cur _ h1
    have hu : u = r.url := (Prod.mk.injEq _ _ _ _ ▸ hkv).1
    rw [hu]
    exact hnorm r hr he
  · have hu : u = ['/'] := (Prod.mk.injEq _ _ _ _ ▸ h1).1
    exact Or.inl hu

/-- C1.  For every route catalog of normalized urls and every non-empty
current path, no node of the tree returned by `_build_breadcrumb_tree` is a
strict descendant of the current path (no node's url starts with
`currentPath + "/"`); and in particular, with registered routes `/`, `/a`,
`/a/b`, `/a/b/c`, building for `/a/b` yields a tree that contains the
`/a/b` node with an empty children list even though `/a/b/c` is in the
catalog (and contains no `/a/b/c` node at all). -/
theorem c1_descendant_pruning :
    (∀ (routes : List RouteEntry) (meta : MetaMap) (cur : Url),
      (∀ r ∈ routes, isEligible r = true → normalizedUrlP r.url) →
      cur ≠ [] →
      allNodesO (fun n => !(listStartsWith (cur ++ ['/']) n.url))
        (buildBreadcrumbTree routes meta cur) = true) ∧
    (treeHasUrlO (chars "/a/b")
        (buildBreadcrumbTree [sampleRoute "/" "home", sampleRoute "/a" "a",
          sampleRoute "/a/b" "ab", sampleRoute "/a/b/c" "abc"] []
          (chars "/a/b")) = true ∧
      allNodesO (fun n => !(n.url = chars "/a/b") || n.children.isEmpty)
        (buildBreadcrumbTree [sampleRoute "/" "home", sampleRoute "/a" "a",
          sampleRoute "/a/b" "ab", sampleRoute "/a/b/c" "abc"] []
          (chars "/a/b")) = true ∧
      treeHasUrlO (chars "/a/b/c")
        (buildBreadcrumbTree [sampleRoute "/" "home", sampleRoute "/a" "a",
          sampleRoute "/a/b" "ab", sampleRoute "/a/b/c" "abc"] []
          (chars "/a/b")) = false) := by
  constructor
  · intro routes meta cur hnorm hcur
    by_cases h0 : buildItems routes meta cur = []
    · rw [(buildBreadcrumbTree_none_iff routes meta cur).mpr h0]
      rfl
    · obtain ⟨ri, hri⟩ :=
        ensureRoot_lookup_isSome (buildItems routes meta cur) cur
      have hgs : ∀ kv ∈ sortGroups (buildGroups
            (ensureRoot (buildItems routes meta cur) cur) cur), ∀ n ∈ kv.2,
          (fun n => !(listStartsWith (cur ++ ['/']) n.url)) n = true ∧
          n.children = [] := by
        intro kv hkv n hn
        obtain ⟨⟨u, it, humem, hneq⟩, hne, hnc, _⟩ :=
          sortedGroups_nodes _ cur kv hkv n hn
        subst hneq
        refine ⟨?_, rfl⟩
        show (!(listStartsWith (cur ++ ['/']) u)) = true
        rw [not_descendant_of_not_child u cur
          (items_url_normalized routes meta cur u it hnorm humem) hne hnc]
        rfl
      by_cases hc : cur = ['/']
      · subst hc
        rw [buildBreadcrumbTree, if_neg h0, buildMain_root_sc _ _ hri]
        rfl
      · rw [buildBreadcrumbTree, if_neg h0, buildMain_notRoot _ _ _ hc hri]
        rw [allNodesO_some, allNodes_mk, Bool.and_eq_true]
        constructor
        · show (!(listStartsWith (cur ++ ['/']) ['/'])) = true
          rw [startsWith_root_false cur hcur]
          rfl
        · apply assembleChildren_allNodes
          · intro t u o b ch1 ch2; rfl
          · exact hgs
          · cases hg : dictLookup ['/'] (sortGroups (buildGroups
                (ensureRoot (buildItems routes meta cur) cur) cur)) with
            | none => rfl
            | some g =>
              show allNodesL _ g = true
              exact allNodesL_of_childless _ g
                (fun n hn => hgs (['/'], g) (mem_of_dictLookup _ _ _ hg) n hn)
  · exact ⟨by decide, by decide, by decide⟩

/-- Witness for C1 at the concrete example (routes `/`, `/a`, `/a/b`,
`/a/b/c`, current path `/a/b`). -/
theorem c1_witness :
    (∀ r ∈ [sampleRoute "/" "home", sampleRoute "/a" "a",
        sampleRoute "/a/b" "ab", sampleRoute "/a/b/c" "abc"],
      isEligible r = true → normalizedUrlP r.url) ∧
    (chars "/a/b") ≠ [] ∧
    allNodesO (fun n => !(listStartsWith (chars "/a/b" ++ ['/']) n.url))
      (buildBreadcrumbTree [sampleRoute "/" "home", sampleRoute "/a" "a",
        sampleRoute "/a/b" "ab", sampleRoute "/a/b/c" "abc"] []
        (chars "/a/b")) = true :=
  ⟨by decide, by decide,
    c1_descendant_pruning.1 [sampleRoute "/" "home", sampleRoute "/a" "a",
      sampleRoute "/a/b" "ab", sampleRoute "/a/b/c" "abc"] [] (chars "/a/b")
      (by decide) (by decide)⟩

/-! ### C7: the root always represents `/` -/

/-- C7.  Whenever the set of materialized breadcrumb items is non-empty
(the catalog has at least one eligible route), the tree returned by
`_build_breadcrumb_tree` for any current path has a single root node with
url `/`; and when no eligible route registers `/` explicitly, that root is
the synthesized default with label `Home` and order `0`. -/
theorem c7_root_always_slash (routes : List RouteEntry) (meta : MetaMap)
    (cur : Url) (h : ∃ r ∈ routes, isEligible r = true) :
    ∃ n, buildBreadcrumbTree routes meta cur = some n ∧ n.url = ['/'] ∧
      ((∀ r ∈ routes, isEligible r = true → r.url ≠ ['/']) →
        n.text = chars "Home" ∧ n.order = 0) := by
  have hne := buildItems_ne_nil routes meta cur h
  obtain ⟨ri, hri⟩ := ensureRoot_lookup_isSome (buildItems routes meta cur) cur
  have hdef : (∀ r ∈ routes, isEligible r = true → r.url ≠ ['/']) →
      ri = defaultRootItem cur := by
    intro habs
    have h0 : dictLookup ['/'] (buildItems routes meta cur) = none :=
      buildItems_lookup_none' routes meta cur ['/'] habs
    have h1 := ensureRoot_lookup_root (buildItems routes meta cur) cur
    rw [h0, hri] at h1
    simp only [Option.isSome_none, Bool.false_eq_true, dite_false] at h1
    exact Option.some_injective _ h1
  by_cases hc : cur = ['/']
  · subst hc
    rw [buildBreadcrumbTree, if_neg hne, buildMain_root_sc _ _ hri]
    refine ⟨_, rfl, rfl, fun habs => ?_⟩
    rw [hdef habs]
    exact ⟨rfl, rfl⟩
  · rw [buildBreadcrumbTree, if_neg hne, buildMain_notRoot _ _ _ hc hri]
    refine ⟨_, rfl, rfl, fun habs => ?_⟩
    rw [hdef habs]
    exact ⟨rfl, rfl⟩

/-- Witness for C7: a catalog that does not register `/`. -/
theorem c7_witness :
    (∃ r ∈ [sampleRoute "/a" "a"], isEligible r = true) ∧
    ∃ n, buildBreadcrumbTree [sampleRoute "/a" "a"] [] (chars "/a") =
      some n ∧ n.url = ['/'] ∧
      ((∀ r ∈ [sampleRoute "/a" "a"], isEligible r = true → r.url ≠ ['/']) →
        n.text = chars "Home" ∧ n.order = 0) :=
  ⟨⟨sampleRoute "/a" "a", by decide⟩,
    c7_root_always_slash [sampleRoute "/a" "a"] [] (chars "/a")
      ⟨sampleRoute "/a" "a", by decide⟩⟩

/-! ### C4: children are sorted by (order, url) -/

theorem strLe_total : ∀ (a b : List Char),
    strLe a b = true ∨ strLe b a = true := by
  intro a
  induction a with
  | nil => intro b; exact Or.inl rfl
  | cons c cs ih =>
    intro b
    cases b with
    | nil => exact Or.inr rfl
    | cons d ds =>
      rw [strLe, strLe]
      by_cases h1 : c.toNat < d.toNat
      · left
        rw [if_pos h1]
      · by_cases h2 : d.toNat < c.toNat
        · right
          rw [if_pos h2]
        · rw [if_neg h1, if_neg h2, if_neg h2, if_neg h1]
          exact ih ds

theorem nodeLe_total : ∀ (a b : Node), nodeLe a b = true ∨ nodeLe b a = true := by
  intro a b
  rw [nodeLe, nodeLe]
  by_cases h1 : a.order < b.order
  · left
    rw [if_pos h1]
  · by_cases h2 : b.order < a.order
    · right
      rw [if_pos h2]
    · rw [if_neg h1, if_neg h2, if_neg h2, if_neg h1]
      exact strLe_total a.url b.url

theorem chainLe_cons_cons (a b : Node) (t : List Node) :
    chainLe (a :: b :: t) = (nodeLe a b && chainLe (b :: t)) := rfl

theorem chainLe_insertNode (x : Node) : ∀ (l : List Node),
    chainLe l = true → chainLe (insertNode x l) = true := by
  intro l
  induction l with
  | nil => intro _; rfl
  | cons y ys ih =>
    intro hl
    rw [insertNode]
    by_cases hxy : nodeLe x y = true
    · rw [if_pos hxy, chainLe_cons_cons, hxy, hl]
      rfl
    · rw [if_neg hxy]
      have hyx : nodeLe y x = true := by
        rcases nodeLe_total x y with h | h
        · exact absurd h hxy
        · exact h
      cases ys with
      | nil =>
        show chainLe [y, x] = true
        rw [chainLe_cons_cons, hyx]
        rfl
      | cons z zs =>
        rw [chainLe_cons_cons, Bool.and_eq_true] at hl
        obtain ⟨hyz, hzzs⟩ := hl
        have hins := ih hzzs
        rw [insertNode] at hins ⊢
        by_cases hxz : nodeLe x z = true
        · rw [if_pos hxz] at hins ⊢
          rw [chainLe_cons_cons, hyx, hins]
          rfl
        · rw [if_neg hxz] at hins ⊢
          rw [chainLe_cons_cons, hyz, hins]
          rfl

theorem chainLe_sortNodes : ∀ (l : List Node), chainLe (sortNodes l) = true := by
  intro l
  induction l with
  | nil => rfl
  | cons x xs ih => exact chainLe_insertNode x (sortNodes xs) ih

theorem chainLe_replaceMid (t : List Char) (u : Url) (o : Int) (b : Bool)
    (ch K : List Node) :
    ∀ (pre post : List Node),
    chainLe (pre ++ Node.mk t u o b ch :: post) = true →
    chainLe (pre ++ Node.mk t u o b K :: post) = true := by
  intro pre
  induction pre with
  | nil =>
    intro post h
    cases post with
    | nil => rfl
    | cons q qs =>
      rw [List.nil_append] at h ⊢
      rw [chainLe_cons_cons] at h ⊢
      exact h
  | cons a pre' ih =>
    intro post h
    cases pre' with
    | nil =>
      rw [List.cons_append, List.nil_append] at h ⊢
      rw [chainLe_cons_cons] at h ⊢
      rw [Bool.and_eq_true] at h
      obtain ⟨h1, h2⟩ := h
      have h1' : nodeLe a (Node.mk t u o b K) = true := h1
      have h2' := ih post h2
      rw [List.nil_append] at h2'
      rw [h1', h2']
      rfl
    | cons a2 pre'' =>
      rw [List.cons_append, List.cons_append] at h ⊢
      rw [chainLe_cons_cons] at h ⊢
      rw [Bool.and_eq_true] at h
      obtain ⟨h1, h2⟩ := h
      have h2' := ih post h2
      rw [List.cons_append] at h2'
      rw [h1, h2']
      rfl

/-- Sortedness is preserved by the assembly loop: if every level of the
input is sorted, and every sibling group is sorted with childless nodes,
then every level of the assembled forest is sorted. -/
theorem assembleChildren_sorted (gs : List (Url × List Node)) (cur : Url)
    (hgs : ∀ kv ∈ gs, (∀ n ∈ kv.2, n.children = []) ∧ chainLe kv.2 = true) :
    ∀ (chain : List Url) (ch : List Node),
    allNodesL (fun n => chainLe n.children) ch = true →
    chainLe ch = true →
    allNodesL (fun n => chainLe n.children)
      (assembleChildren gs cur chain ch) = true ∧
    chainLe (assembleChildren gs cur chain ch) = true := by
  intro chain
  induction chain with
  | nil => intro ch h1 h2; exact ⟨h1, h2⟩
  | cons p0 rest ih =>
    intro ch hall hchain
    cases hs : splitAtUrl p0 ch with
    | none =>
      rw [assembleChildren, hs]
      exact ih ch hall hchain
    | some y =>
      obtain ⟨pre, c, post⟩ := y
      obtain ⟨hch_eq, hcurl⟩ := splitAtUrl_eq p0 ch pre c post hs
      subst hch_eq
      rw [allNodesL_append, Bool.and_eq_true] at hall
      obtain ⟨hpre, hcpost⟩ := hall
      rw [allNodesL_cons, Bool.and_eq_true] at hcpost
      obtain ⟨hc, hpost⟩ := hcpost
      rw [assembleChildren, hs]
      obtain ⟨t, u, o, b, ch0⟩ := c
      rw [allNodes_mk, Bool.and_eq_true] at hc
      obtain ⟨hcp, hch0⟩ := hc
      have hkids : allNodesL (fun n => chainLe n.children)
          (match dictLookup p0 gs with
            | some g => if p0 ≠ cur then g else Node.children (.mk t u o b ch0)
            | none => Node.children (.mk t u o b ch0)) = true ∧
          chainLe (match dictLookup p0 gs with
            | some g => if p0 ≠ cur then g else Node.children (.mk t u o b ch0)
            | none => Node.children (.mk t u o b ch0)) = true := by
        cases hg : dictLookup p0 gs with
        | none => exact ⟨hch0, hcp⟩
        | some g =>
          show allNodesL _ (if p0 ≠ cur then g else Node.children (.mk t u o b ch0)) = true ∧
            chainLe (if p0 ≠ cur then g else Node.children (.mk t u o b ch0)) = true
          by_cases hpc : p0 ≠ cur
          · rw [if_pos hpc]
            obtain ⟨hchl, hsort⟩ := hgs (p0, g) (mem_of_dictLookup p0 g gs hg)
            refine ⟨allNodesL_of_childless _ g (fun n hn => ⟨?_, hchl n hn⟩), hsort⟩
            obtain ⟨t', u', o', b', ch'⟩ := n
            have : ch' = [] := hchl _ hn
            subst this
            rfl
          · rw [if_neg hpc]
            exact ⟨hch0, hcp⟩
      obtain ⟨hkids1, hkids2⟩ := hkids
      obtain ⟨hA1, hA2⟩ := ih _ hkids1 hkids2
      constructor
      · show allNodesL _ (pre ++ Node.mk t u o b
          (assembleChildren gs cur rest _) :: post) = true
        rw [allNodesL_append, allNodesL_cons, allNodes_mk]
        rw [hpre, hpost, hA1]
        show (true && ((chainLe (assembleChildren gs cur rest _) && true) && true)) = true
        rw [hA2]
        rfl
      · exact chainLe_replaceMid t u o b ch0 _ pre post hchain

/-- Lookup of a sorted group list is always sorted. -/
theorem chainLe_lookup_sortGroups (k : Url) (g0 : List (Url × List Node))
    (g : List Node) (h : dictLookup k (sortGroups g0) = some g) :
    chainLe g = true := by
  rw [sortGroups_lookup] at h
  cases h0 : dictLookup k g0 with
  | none => rw [h0] at h; exact Option.noConfusion h
  | some g1 =>
    rw [h0] at h
    have : sortNodes g1 = g := Option.some_injective _ h
    rw [← this]
    exact chainLe_sortNodes g1

/-- C4.  In every tree returned by `_build_breadcrumb_tree`, the children
list of every node is sorted by (order ascending, then url ascending) in
the adjacent-pairs sense; and for siblings with orders `[2, 0, 1]` and urls
`[/c, /a, /b]`, the resulting children order is `/a (0), /b (1), /c (2)`. -/
theorem c4_children_sorted :
    (∀ (routes : List RouteEntry) (meta : MetaMap) (cur : Url),
      allNodesO (fun n => chainLe n.children)
        (buildBreadcrumbTree routes meta cur) = true) ∧
    buildBreadcrumbTree [sampleRoute "/" "home", sampleRoute "/c" "c",
        sampleRoute "/a" "a", sampleRoute "/b" "b"]
      [(chars "c", ⟨chars "C", some 2, none⟩),
       (chars "a", ⟨chars "A", some 0, none⟩),
       (chars "b", ⟨chars "B", some 1, none⟩)] (chars "/a") =
      some (.mk (chars "Home") (chars "/") 0 false
        [.mk (chars "A") (chars "/a") 0 true [],
         .mk (chars "B") (chars "/b") 1 false [],
         .mk (chars "C") (chars "/c") 2 false []]) := by
  constructor
  · intro routes meta cur
    by_cases h0 : buildItems routes meta cur = []
    · rw [(buildBreadcrumbTree_none_iff routes meta cur).mpr h0]
      rfl
    · obtain ⟨ri, hri⟩ :=
        ensureRoot_lookup_isSome (buildItems routes meta cur) cur
      have hgs : ∀ kv ∈ sortGroups (buildGroups
            (ensureRoot (buildItems routes meta cur) cur) cur),
          (∀ n ∈ kv.2, n.children = []) ∧ chainLe kv.2 = true := by
        intro kv hkv
        constructor
        · intro n hn
          obtain ⟨⟨u, it, _, hneq⟩, _, _, _⟩ :=
            sortedGroups_nodes _ cur kv hkv n hn
          subst hneq
          rfl
        · obtain ⟨a, ha, heq⟩ := List.mem_map.mp hkv
          subst heq
          exact chainLe_sortNodes a.2
      by_cases hc : cur = ['/']
      · subst hc
        rw [buildBreadcrumbTree, if_neg h0, buildMain_root_sc _ _ hri]
        rfl
      · rw [buildBreadcrumbTree, if_neg h0, buildMain_notRoot _ _ _ hc hri]
        rw [allNodesO_some, allNodes_mk, Bool.and_eq_true]
        have hch : allNodesL (fun n => chainLe n.children)
            ((dictLookup ['/'] (sortGroups (buildGroups
              (ensureRoot (buildItems routes meta cur) cur) cur))).getD []) = true ∧
            chainLe ((dictLookup ['/'] (sortGroups (buildGroups
              (ensureRoot (buildItems routes meta cur) cur) cur))).getD []) = true := by
          cases hg : dictLookup ['/'] (sortGroups (buildGroups
              (ensureRoot (buildItems routes meta cur) cur) cur)) with
          | none => exact ⟨rfl, rfl⟩
          | some g =>
            show allNodesL _ g = true ∧ chainLe g = true
            obtain ⟨hchl, hsort⟩ := hgs (['/'], g) (mem_of_dictLookup _ _ _ hg)
            refine ⟨allNodesL_of_childless _ g (fun n hn => ⟨?_, hchl n hn⟩), hsort⟩
            obtain ⟨t', u', o', b', ch'⟩ := n
            have : ch' = [] := hchl _ hn
            subst this
            rfl
        obtain ⟨hch1, hch2⟩ := hch
        obtain ⟨hA1, hA2⟩ := assembleChildren_sorted _ cur hgs _ _ hch1 hch2
        constructor
        · show chainLe (assembleChildren _ cur _ _) = true
          exact hA2
        · exact hA1
  · rfl

/-! ### C2: counting current-path markers -/

theorem markedCount_mk (t : List Char) (u : Url) (o : Int) (b : Bool)
    (ch : List Node) :
    markedCount (.mk t u o b ch) = (if b then 1 else 0) + markedCountL ch := rfl

theorem markedCountL_cons (n : Node) (ns : List Node) :
    markedCountL (n :: ns) = markedCount n + markedCountL ns := rfl

theorem markedCountL_append : ∀ (l1 l2 : List Node),
    markedCountL (l1 ++ l2) = markedCountL l1 + markedCountL l2 := by
  intro l1 l2
  induction l1 with
  | nil => simp [markedCountL]
  | cons n ns ih =>
    rw [List.cons_append, markedCountL_cons, markedCountL_cons, ih]
    omega

theorem markedCountL_zero_of : ∀ (l : List Node),
    (∀ n ∈ l, n.isCurrentPath = false ∧ n.children = []) →
    markedCountL l = 0 := by
  intro l
  induction l with
  | nil => intro _; rfl
  | cons n ns ih =>
    intro h
    obtain ⟨hb, hch⟩ := h n (List.mem_cons_self n ns)
    have htail := ih (fun x hx => h x (List.mem_cons_of_mem n hx))
    rw [markedCountL_cons, htail]
    obtain ⟨t, u, o, b, ch0⟩ := n
    have hb' : b = false := hb
    have hch' : ch0 = [] := hch
    subst hb'; subst hch'
    rfl

theorem isChildOf_self (u : Url) : isChildOf u u = false := by
  rw [isChildOf]
  by_cases h : u = ['/']
  · rw [if_pos h]
    simp [h]
  · rw [if_neg h]
    have : decide (u.length + 1 < u.length) = false := by
      rw [decide_eq_false_iff_not]
      omega
    rw [this, Bool.false_and, Bool.false_and]

theorem isChildOf_shorter (q cur : Url) (h : q.length < cur.length)
    (hc : cur ≠ ['/']) : isChildOf q cur = false := by
  rw [isChildOf, if_neg hc]
  have : decide (cur.length + 1 < q.length) = false := by
    rw [decide_eq_false_iff_not]
    omega
  rw [this, Bool.false_and, Bool.false_and]

theorem dictLookup_isSome_iff {α : Type} (q : Url) :
    ∀ (d : List (Url × α)), (dictLookup q d).isSome = true ↔ q ∈ dictKeys d := by
  intro d
  induction d with
  | nil => simp [dictLookup, dictKeys]
  | cons kv rest ih =>
    rw [dictLookup]
    by_cases h : kv.1 = q
    · rw [if_pos h]
      constructor
      · intro _
        show q ∈ kv.1 :: dictKeys rest
        rw [h]
        exact List.mem_cons_self q _
      · intro _
        rfl
    · rw [if_neg h]
      rw [ih]
      constructor
      · intro hm
        exact List.mem_cons_of_mem _ hm
      · intro hm
        rcases List.mem_cons.mp hm with h1 | h1
        · exact absurd h1.symm h
        · exact h1

theorem filter_eq_self_of_true {α : Type} (p : α → Bool) :
    ∀ (l : List α), (∀ a ∈ l, p a = true) → l.filter p = l := by
  intro l
  induction l with
  | nil => intro _; rfl
  | cons a t ih =>
    intro h
    rw [List.filter_cons, h a (List.mem_cons_self a t)]
    simp only [if_true]
    rw [ih (fun x hx => h x (List.mem_cons_of_mem a hx))]

theorem mem_keys_buildItems_of (routes : List RouteEntry) (meta : MetaMap)
    (currentPath q : Url)
    (h : ∃ r ∈ routes, isEligible r = true ∧ r.url = q) :
    q ∈ dictKeys (buildItems routes meta currentPath) := by
  suffices hgen : ∀ (l : List RouteEntry) (acc : List (Url × BreadcrumbItem)),
      (q ∈ dictKeys acc ∨ ∃ r ∈ l, isEligible r = true ∧ r.url = q) →
      q ∈ dictKeys (l.foldl (fun acc r =>
        if isEligible r then dictInsert r.url (itemFor meta r currentPath) acc
        else acc) acc) by
    exact hgen routes [] (Or.inr h)
  intro l
  induction l with
  | nil =>
    intro acc hacc
    rcases hacc with h1 | h1
    · exact h1
    · obtain ⟨r, hr, _⟩ := h1
      exact absurd hr (List.not_mem_nil r)
  | cons r rs ih =>
    intro acc hacc
    rw [List.foldl_cons]
    rcases hacc with h1 | h1
    · refine ih _ (Or.inl ?_)
      by_cases he : isEligible r = true
      · rw [if_pos he]
        exact (mem_dictKeys_insert _ _ _ _).mpr (Or.inr h1)
      · rw [if_neg he]
        exact h1
    · obtain ⟨r', hr', he', hu'⟩ := h1
      rcases List.mem_cons.mp hr' with h2 | h2
      · subst h2
        refine ih _ (Or.inl ?_)
        rw [if_pos he']
        exact (mem_dictKeys_insert _ _ _ _).mpr (Or.inl hu'.symm)
      · exact ih _ (Or.inr ⟨r', h2, he', hu'⟩)

theorem dictAppendNode_mem (k : Url) (v : Node) :
    ∀ (d : List (Url × List Node)) (kv : Url × List Node),
    kv ∈ dictAppendNode k v d →
    kv ∈ d ∨ (kv.1 = k ∧ (kv.2 = [v] ∨ ∃ vs, (k, vs) ∈ d ∧ kv.2 = vs ++ [v])) := by
  intro d
  induction d with
  | nil =>
    intro kv h
    cases h with
    | head => exact Or.inr ⟨rfl, Or.inl rfl⟩
    | tail _ hm => exact absurd hm (List.not_mem_nil kv)
  | cons hd rest ih =>
    intro kv h
    rw [dictAppendNode] at h
    by_cases hk : hd.1 = k
    · rw [if_pos hk] at h
      cases h with
      | head =>
        right
        refine ⟨hk, Or.inr ⟨hd.2, ?_, rfl⟩⟩
        rw [← hk]
        exact List.mem_cons_self _ _
      | tail _ hm => exact Or.inl (List.mem_cons_of_mem hd hm)
    · rw [if_neg hk] at h
      cases h with
      | head => exact Or.inl (List.mem_cons_self hd rest)
      | tail _ hm =>
        rcases ih kv hm with h1 | ⟨h1, h2⟩
        · exact Or.inl (List.mem_cons_of_mem hd h1)
        · rcases h2 with h2 | ⟨vs, hvs, h3⟩
          · exact Or.inr ⟨h1, Or.inl h2⟩
          · exact Or.inr ⟨h1, Or.inr ⟨vs, List.mem_cons_of_mem hd hvs, h3⟩⟩

theorem dictAppendNode_lookup_self (k : Url) (v : Node) :
    ∀ (d : List (Url × List Node)),
    ∃ g, dictLookup k (dictAppendNode k v d) = some g ∧ v ∈ g := by
  intro d
  induction d with
  | nil =>
    refine ⟨[v], ?_, List.mem_singleton_self v⟩
    rw [dictAppendNode, dictLookup, if_pos rfl]
  | cons hd rest ih =>
    rw [dictAppendNode]
    by_cases hk : hd.1 = k
    · rw [if_pos hk]
      refine ⟨hd.2 ++ [v], ?_, List.mem_append_right _ (List.mem_singleton_self v)⟩
      rw [dictLookup, if_pos hk]
    · rw [if_neg hk]
      obtain ⟨g, hg, hv⟩ := ih
      refine ⟨g, ?_, hv⟩
      rw [dictLookup, if_neg hk]
      exact hg

theorem dictAppendNode_lookup_grows (k k' : Url) (v n : Node) :
    ∀ (d : List (Url × List Node)) (g : List Node),
    dictLookup k' d = some g → n ∈ g →
    ∃ g', dictLookup k' (dictAppendNode k v d) = some g' ∧ n ∈ g' := by
  intro d
  induction d with
  | nil => intro g h _; exact Option.noConfusion h
  | cons hd rest ih =>
    intro g h hn
    rw [dictLookup] at h
    rw [dictAppendNode]
    by_cases hk : hd.1 = k
    · rw [if_pos hk]
      by_cases hk' : hd.1 = k'
      · rw [if_pos hk'] at h
        refine ⟨hd.2 ++ [v], ?_, ?_⟩
        · rw [dictLookup, if_pos hk']
        · exact List.mem_append_left _ (Option.some_injective _ h ▸ hn)
      · rw [if_neg hk'] at h
        refine ⟨g, ?_, hn⟩
        rw [dictLookup, if_neg hk']
        exact h
    · rw [if_neg hk]
      by_cases hk' : hd.1 = k'
      · rw [if_pos hk'] at h
        refine ⟨hd.2, ?_, Option.some_injective _ h ▸ hn⟩
        rw [dictLookup, if_pos hk']
      · rw [if_neg hk'] at h
        obtain ⟨g', hg', hn'⟩ := ih g h hn
        refine ⟨g', ?_, hn'⟩
        rw [dictLookup, if_neg hk']
        exact hg'

/-- Existence direction of the grouping loop: every non-root, non-child
item ends up (as a childless node) in the sibling group of its syntactic
parent. -/
theorem buildGroups_exists (items : List (Url × BreadcrumbItem)) (cur : Url) :
    ∀ (u : Url) (it : BreadcrumbItem), (u, it) ∈ items → u ≠ ['/'] →
    isChildOf u cur = false →
    ∃ g, dictLookup (getParentUrl u) (buildGroups items cur) = some g ∧
      Node.mk it.text u it.order (decide (u = cur)) [] ∈ g := by
  suffices hgen : ∀ (l : List (Url × BreadcrumbItem))
      (acc : List (Url × List Node)) (u : Url) (it : BreadcrumbItem),
      u ≠ ['/'] → isChildOf u cur = false →
      ((∃ g, dictLookup (getParentUrl u) acc = some g ∧
        Node.mk it.text u it.order (decide (u = cur)) [] ∈ g) ∨ (u, it) ∈ l) →
      ∃ g, dictLookup (getParentUrl u) (l.foldl (fun acc kv =>
        if kv.1 = ['/'] then acc
        else if isChildOf kv.1 cur then acc
        else dictAppendNode (getParentUrl kv.1)
          (.mk kv.2.text kv.1 kv.2.order (decide (kv.1 = cur)) []) acc) acc) =
        some g ∧
      Node.mk it.text u it.order (decide (u = cur)) [] ∈ g by
    intro u it hmem hne hnc
    exact hgen items [] u it hne hnc (Or.inr hmem)
  intro l
  induction l with
  | nil =>
    intro acc u it _ _ hacc
    rcases hacc with h1 | h1
    · exact h1
    · exact absurd h1 (List.not_mem_nil (u, it))
  | cons x xs ih =>
    intro acc u it hne hnc hacc
    rw [List.foldl_cons]
    have hgrow : ∀ (acc' : List (Url × List Node)),
        (∃ g, dictLookup (getParentUrl u) acc' = some g ∧
          Node.mk it.text u it.order (decide (u = cur)) [] ∈ g) →
        ∃ g, dictLookup (getParentUrl u)
          (if x.1 = ['/'] then acc'
           else if isChildOf x.1 cur then acc'
           else dictAppendNode (getParentUrl x.1)
             (.mk x.2.text x.1 x.2.order (decide (x.1 = cur)) []) acc') =
          some g ∧
        Node.mk it.text u it.order (decide (u = cur)) [] ∈ g := by
      intro acc' hin
      by_cases h1 : x.1 = ['/']
      · rw [if_pos h1]; exact hin
      · rw [if_neg h1]
        by_cases h2 : isChildOf x.1 cur = true
        · rw [if_pos h2]; exact hin
        · rw [if_neg h2]
          obtain ⟨g, hg, hv⟩ := hin
          exact dictAppendNode_lookup_grows _ _ _ _ acc' g hg hv
    rcases hacc with h1 | h1
    · exact ih _ u it hne hnc (Or.inl (hgrow acc h1))
    · rcases List.mem_cons.mp h1 with h2 | h2
      · -- the processed entry is exactly (u, it)
        obtain ⟨xu, xit⟩ := x
        have hu : u = xu := (Prod.mk.injEq _ _ _ _ ▸ h2).1
        have hit : it = xit := (Prod.mk.injEq _ _ _ _ ▸ h2).2
        subst hu
        subst hit
        refine ih _ u it hne hnc (Or.inl ?_)
        simp only at hne hnc ⊢
        rw [if_neg hne, if_neg (by rw [hnc]; exact Bool.false_ne_true : ¬isChildOf u cur = true)]
        exact dictAppendNode_lookup_self (getParentUrl u)
          (.mk it.text u it.order (decide (u = cur)) []) acc
      · exact ih _ u it hne hnc (Or.inr h2)

/-- The urls within any one sibling group are distinct (when the item dict
has distinct keys). -/
theorem buildGroups_nodupUrls (items : List (Url × BreadcrumbItem))
    (cur : Url) (hnd : (dictKeys items).Nodup) :
    ∀ kv ∈ buildGroups items cur, (kv.2.map Node.url).Nodup := by
  suffices hgen : ∀ (l : List (Url × BreadcrumbItem))
      (acc : List (Url × List Node)),
      (dictKeys l).Nodup →
      (∀ kv ∈ acc, (kv.2.map Node.url).Nodup ∧
        ∀ n ∈ kv.2, n.url ∉ dictKeys l) →
      ∀ kv ∈ l.foldl (fun acc kv =>
        if kv.1 = ['/'] then acc
        else if isChildOf kv.1 cur then acc
        else dictAppendNode (getParentUrl kv.1)
          (.mk kv.2.text kv.1 kv.2.order (decide (kv.1 = cur)) []) acc) acc,
      (kv.2.map Node.url).Nodup by
    intro kv hkv
    exact hgen items [] hnd (fun kv h => absurd h (List.not_mem_nil kv)) kv hkv
  intro l
  induction l with
  | nil =>
    intro acc _ hacc kv hkv
    exact (hacc kv hkv).1
  | cons x xs ih =>
    intro acc hnd2 hacc kv hkv
    rw [List.foldl_cons] at hkv
    have hx_notin : x.1 ∉ dictKeys xs := by
      simp only [dictKeys, List.map_cons, List.nodup_cons] at hnd2
      exact hnd2.1
    have hxs_nd : (dictKeys xs).Nodup := by
      simp only [dictKeys, List.map_cons, List.nodup_cons] at hnd2
      exact hnd2.2
    refine ih _ hxs_nd ?_ kv hkv
    intro kv' hkv'
    by_cases h1 : x.1 = ['/']
    · rw [if_pos h1] at hkv'
      obtain ⟨hnodup, hnot⟩ := hacc kv' hkv'
      exact ⟨hnodup, fun n hn => fun hmem =>
        hnot n hn (List.mem_cons_of_mem _ hmem)⟩
    · rw [if_neg h1] at hkv'
      by_cases h2 : isChildOf x.1 cur = true
      · rw [if_pos h2] at hkv'
        obtain ⟨hnodup, hnot⟩ := hacc kv' hkv'
        exact ⟨hnodup, fun n hn => fun hmem =>
          hnot n hn (List.mem_cons_of_mem _ hmem)⟩
      · rw [if_neg h2] at hkv'
        rcases dictAppendNode_mem _ _ _ _ hkv' with h3 | ⟨h3, h4⟩
        · obtain ⟨hnodup, hnot⟩ := hacc kv' h3
          exact ⟨hnodup, fun n hn => fun hmem =>
            hnot n hn (List.mem_cons_of_mem _ hmem)⟩
        · rcases h4 with h4 | ⟨vs, hvs, h4⟩
          · rw [h4]
            refine ⟨by simp, fun n hn => ?_⟩
            rcases List.mem_singleton.mp hn with rfl
            exact hx_notin
          · obtain ⟨hnodup, hnot⟩ := hacc (getParentUrl x.1, vs) hvs
            rw [h4]
            constructor
            · rw [List.map_append]
              rw [List.nodup_append]
              refine ⟨hnodup, by simp, ?_⟩
              intro a ha hb
              simp only [List.map_cons, List.map_nil, List.mem_singleton] at hb
              obtain ⟨n, hn, hna⟩ := List.mem_map.mp ha
              rw [hb] at hna
              have hx1 : Node.url (.mk x.2.text x.1 x.2.order
                  (decide (x.1 = cur)) []) = x.1 := rfl
              rw [hx1] at hna
              exact hnot n hn (hna ▸ List.mem_cons_self _ _)
            · intro n hn
              rcases List.mem_append.mp hn with h5 | h5
              · exact fun hmem => hnot n h5 (List.mem_cons_of_mem _ hmem)
              · rcases List.mem_singleton.mp h5 with rfl
                exact hx_notin

theorem sortedGroups_exists (items : List (Url × BreadcrumbItem)) (cur : Url)
    (u : Url) (it : BreadcrumbItem) (hmem : (u, it) ∈ items)
    (hne : u ≠ ['/']) (hnc : isChildOf u cur = false) :
    ∃ g, dictLookup (getParentUrl u) (sortGroups (buildGroups items cur)) =
      some g ∧ Node.mk it.text u it.order (decide (u = cur)) [] ∈ g := by
  obtain ⟨g0, h0, hn0⟩ := buildGroups_exists items cur u it hmem hne hnc
  refine ⟨sortNodes g0, ?_, (mem_sortNodes _ _).mpr hn0⟩
  rw [sortGroups_lookup, h0]
  rfl

theorem sortedGroups_nodupUrls (items : List (Url × BreadcrumbItem))
    (cur : Url) (hnd : (dictKeys items).Nodup) (k : Url) (g : List Node)
    (h : dictLookup k (sortGroups (buildGroups items cur)) = some g) :
    (g.map Node.url).Nodup := by
  rw [sortGroups_lookup] at h
  cases h0 : dictLookup k (buildGroups items cur) with
  | none => rw [h0] at h; exact Option.noConfusion h
  | some g1 =>
    rw [h0] at h
    have hge : sortNodes g1 = g := Option.some_injective _ h
    have hperm : (g.map Node.url).Perm (g1.map Node.url) :=
      (hge ▸ (sortNodes_perm g1)).map Node.url
    exact hperm.nodup_iff.mpr
      (buildGroups_nodupUrls items cur hnd _ (mem_of_dictLookup _ _ _ h0))

theorem splitAtUrl_found (p : Url) : ∀ (ch : List Node),
    (∃ n ∈ ch, n.url = p) →
    ∃ pre c post, splitAtUrl p ch = some (pre, c, post) := by
  intro ch
  induction ch with
  | nil =>
    rintro ⟨n, hn, _⟩
    exact absurd hn (List.not_mem_nil n)
  | cons x xs ih =>
    rintro ⟨n, hn, hurl⟩
    rw [splitAtUrl]
    by_cases hx : x.url = p
    · rw [if_pos hx]
      exact ⟨[], x, xs, rfl⟩
    · rw [if_neg hx]
      rcases List.mem_cons.mp hn with h1 | h1
      · exact absurd (h1 ▸ hurl) hx
      · obtain ⟨pre, c, post, hs⟩ := ih ⟨n, h1, hurl⟩
        rw [hs]
        exact ⟨x :: pre, c, post, rfl⟩

theorem splitAtUrl_pre (p : Url) : ∀ (ch pre : List Node) (c : Node)
    (post : List Node), splitAtUrl p ch = some (pre, c, post) →
    ∀ x ∈ pre, x.url ≠ p := by
  intro ch
  induction ch with
  | nil => intro pre c post h; exact Option.noConfusion h
  | cons y ys ih =>
    intro pre c post h x hx
    rw [splitAtUrl] at h
    by_cases hy : y.url = p
    · rw [if_pos hy] at h
      have : ([] : List Node) = pre := congrArg (fun z => z.1) (Option.some_injective _ h)
      rw [← this] at hx
      exact absurd hx (List.not_mem_nil x)
    · rw [if_neg hy] at h
      cases hs : splitAtUrl p ys with
      | none => rw [hs] at h; exact Option.noConfusion h
      | some z =>
        rw [hs] at h
        obtain ⟨pre', c', post'⟩ := z
        have h1 : y :: pre' = pre := congrArg (fun z => z.1) (Option.some_injective _ h)
        rw [← h1] at hx
        rcases List.mem_cons.mp hx with h2 | h2
        · rw [h2]; exact hy
        · exact ih pre' c' post' hs x h2

/-! ### The syntactic ancestor chain, unfolded -/

theorem synAncestors_root : synAncestors ['/'] = [] := rfl

theorem walkFuel_step (inI : Url → Bool) (f : Nat) (path : Url)
    (acc : List Url) (hp : path ≠ ['/']) (hg : getParentUrl path ≠ path) :
    walkFuel inI (f + 1) path acc =
      walkFuel inI f (getParentUrl path)
        (if inI path then acc ++ [path] else acc) := by
  rw [walkFuel, if_neg hp, if_neg hg]

theorem synAncestors_cons (cur : Url) (hcur : cur ≠ ['/']) :
    synAncestors cur = cur :: synAncestors (getParentUrl cur) := by
  have hg : getParentUrl cur ≠ cur :=
    fun h => hcur (getParentUrl_eq_self cur h)
  have h2 : cur.length + 2 = (cur.length + 1) + 1 := rfl
  rw [synAncestors, h2, walkFuel_step _ _ _ _ hcur hg]
  have h3 : (if (fun (_ : Url) => true) cur then ([] : List Url) ++ [cur]
      else []) = [cur] := rfl
  rw [h3]
  rw [walkFuel_filter, filter_true_id]
  by_cases hpr : getParentUrl cur = ['/']
  · rw [hpr]
    rw [walkFuel_root _ _ _ (by omega), synAncestors_root]
    rfl
  · cases getParentUrl_shrink cur with
    | inl h => exact absurd h hpr
    | inr h =>
      rw [walkFuel_stable _ (getParentUrl cur).length _ _ _ (Nat.le_refl _)
        (by omega)]
      rfl

/-- The root-to-leaf chain walked by the assembly loop: a list of urls each
of which is in the item dict, is not the root, is strictly shorter than the
current path (except for the final element, which is the current path
itself), links to the previous element by `_get_parent_url`, and — except
at the final step — is not the parent of the current path. -/
inductive LinkedChain (items : List (Url × BreadcrumbItem)) (cur : Url) :
    Url → List Url → Prop where
  | last (prev : Url) (hpar : getParentUrl cur = prev) (hner : cur ≠ ['/'])
      (hmem : (dictLookup cur items).isSome = true) :
      LinkedChain items cur prev [cur]
  | step (prev q : Url) (rest : List Url)
      (hpar : getParentUrl q = prev)
      (hlen : q.length < cur.length)
      (hner : q ≠ ['/'])
      (hmem : (dictLookup q items).isSome = true)
      (hnp : getParentUrl cur ≠ prev)
      (h : LinkedChain items cur q rest) :
      LinkedChain items cur prev (q :: rest)

theorem linkedChain_snoc (items : List (Url × BreadcrumbItem))
    (p cur : Url) (hcur : cur ≠ ['/']) (hpner : p ≠ ['/'])
    (hpar : getParentUrl cur = p) (hlen : p.length < cur.length)
    (hmem : (dictLookup cur items).isSome = true) :
    ∀ (prev : Url) (ch : List Url), LinkedChain items p prev ch →
    LinkedChain items cur prev (ch ++ [cur]) := by
  intro prev ch h
  induction h with
  | last prev0 hpar0 hner0 hmem0 =>
    have hnp : getParentUrl cur ≠ prev0 := by
      rw [hpar]
      cases getParentUrl_shrink p with
      | inl hr => rw [hpar0] at hr; rw [hr]; exact hpner
      | inr hl =>
        rw [hpar0] at hl
        intro he
        rw [he] at hl
        omega
    exact .step prev0 p [cur] hpar0 hlen hpner hmem0 hnp
      (.last p hpar hcur hmem)
  | step prev0 q rest hpar0 hlen0 hner0 hmem0 _ _ ihrec =>
    have hnp : getParentUrl cur ≠ prev0 := by
      rw [hpar]
      cases getParentUrl_shrink q with
      | inl hr => rw [hpar0] at hr; rw [hr]; exact hpner
      | inr hl =>
        rw [hpar0] at hl
        intro he
        rw [← he] at hl
        omega
    exact .step prev0 q (rest ++ [cur]) hpar0 (by omega) hner0 hmem0 hnp ihrec

theorem linkedChain_synAncestors (items : List (Url × BreadcrumbItem)) :
    ∀ (n : Nat) (cur : Url), cur.length ≤ n → cur ≠ ['/'] →
    (∀ q ∈ synAncestors cur, (dictLookup q items).isSome = true) →
    LinkedChain items cur ['/'] ((synAncestors cur).reverse) := by
  intro n
  induction n with
  | zero =>
    intro cur hn hcur hmem
    by_cases hpr : getParentUrl cur = ['/']
    · rw [synAncestors_cons cur hcur, hpr, synAncestors_root]
      exact .last ['/'] hpr hcur
        (hmem cur (by rw [synAncestors_cons cur hcur]; exact List.mem_cons_self _ _))
    · cases getParentUrl_shrink cur with
      | inl h => exact absurd h hpr
      | inr h => omega
  | succ n ih =>
    intro cur hn hcur hmem
    by_cases hpr : getParentUrl cur = ['/']
    · rw [synAncestors_cons cur hcur, hpr, synAncestors_root]
      exact .last ['/'] hpr hcur
        (hmem cur (by rw [synAncestors_cons cur hcur]; exact List.mem_cons_self _ _))
    · have hlt : (getParentUrl cur).length < cur.length := by
        cases getParentUrl_shrink cur with
        | inl h => exact absurd h hpr
        | inr h => exact h
      rw [synAncestors_cons cur hcur, List.reverse_cons]
      refine linkedChain_snoc items (getParentUrl cur) cur hcur hpr rfl hlt
        (hmem cur (by rw [synAncestors_cons cur hcur]; exact List.mem_cons_self _ _))
        ['/'] _ ?_
      exact ih (getParentUrl cur) (by omega) hpr
        (fun q hq => hmem q (by rw [synAncestors_cons cur hcur]; exact List.mem_cons_of_mem _ hq))

theorem linkedChain_group_exists (items : List (Url × BreadcrumbItem))
    (cur : Url) (hcur : cur ≠ ['/']) (q : Url) (rest : List Url)
    (h : LinkedChain items cur q rest) :
    ∃ g, dictLookup q (sortGroups (buildGroups items cur)) = some g := by
  cases h with
  | last _ hpar hner hmem =>
    obtain ⟨it, hit⟩ := Option.isSome_iff_exists.mp hmem
    obtain ⟨g, hg, _⟩ := sortedGroups_exists items cur cur it
      (mem_of_dictLookup _ _ _ hit) hner (isChildOf_self cur)
    rw [hpar] at hg
    exact ⟨g, hg⟩
  | step _ q2 rest2 hpar2 hlen2 hner2 hmem2 _ _ =>
    obtain ⟨it, hit⟩ := Option.isSome_iff_exists.mp hmem2
    obtain ⟨g, hg, _⟩ := sortedGroups_exists items cur q2 it
      (mem_of_dictLookup _ _ _ hit) hner2 (isChildOf_shorter q2 cur hlen2 hcur)
    rw [hpar2] at hg
    exact ⟨g, hg⟩

/-- Every node of a sibling group whose url is not the current path is
unmarked and childless. -/
theorem group_node_unmarked (items : List (Url × BreadcrumbItem)) (cur : Url)
    (k : Url) (g : List Node)
    (hg : dictLookup k (sortGroups (buildGroups items cur)) = some g)
    (n : Node) (hn : n ∈ g) (hne : n.url ≠ cur) :
    n.isCurrentPath = false ∧ n.children = [] := by
  obtain ⟨⟨u, it, _, hneq⟩, _, _, _⟩ :=
    sortedGroups_nodes items cur (k, g) (mem_of_dictLookup _ _ _ hg) n hn
  subst hneq
  refine ⟨?_, rfl⟩
  show decide (u = cur) = false
  exact decide_eq_false hne

/-- Reduction of one assembly step when the chain url is found. -/
theorem assembleChildren_cons_found (gs : List (Url × List Node)) (cur : Url)
    (p0 : Url) (rest : List Url) (ch pre : List Node) (c : Node)
    (post : List Node) (hs : splitAtUrl p0 ch = some (pre, c, post)) :
    assembleChildren gs cur (p0 :: rest) ch =
      pre ++ Node.mk c.text c.url c.order c.isCurrentPath
        (assembleChildren gs cur rest
          (match dictLookup p0 gs with
            | some g => if p0 ≠ cur then g else c.children
            | none => c.children)) :: post := by
  rw [assembleChildren, hs]

theorem assembleChildren_nil (gs : List (Url × List Node)) (cur : Url)
    (ch : List Node) : assembleChildren gs cur [] ch = ch := rfl

/-- The central counting argument: assembling a linked root-to-leaf chain
against the sibling groups yields exactly one marked node (the one whose
url is the current path). -/
theorem assemble_marked_count (items : List (Url × BreadcrumbItem))
    (cur : Url) (hcur : cur ≠ ['/']) (hnd : (dictKeys items).Nodup) :
    ∀ (chain : List Url) (prev : Url),
    LinkedChain items cur prev chain →
    markedCountL (assembleChildren (sortGroups (buildGroups items cur)) cur
      chain
      ((dictLookup prev (sortGroups (buildGroups items cur))).getD [])) = 1 := by
  intro chain prev h
  induction h with
  | last prev0 hpar0 hner0 hmem0 =>
    obtain ⟨it, hit⟩ := Option.isSome_iff_exists.mp hmem0
    obtain ⟨g, hg, hnode⟩ := sortedGroups_exists items cur cur it
      (mem_of_dictLookup _ _ _ hit) hner0 (isChildOf_self cur)
    rw [hpar0] at hg
    rw [hg]
    show markedCountL (assembleChildren _ cur [cur] g) = 1
    obtain ⟨pre, c, post, hs⟩ := splitAtUrl_found cur g ⟨_, hnode, rfl⟩
    obtain ⟨hch_eq, hcurl⟩ := splitAtUrl_eq cur g pre c post hs
    have hcmem : c ∈ g := by
      rw [hch_eq]
      exact List.mem_append_right _ (List.mem_cons_self _ _)
    obtain ⟨⟨u, itc, humem, hceq⟩, _, _, _⟩ :=
      sortedGroups_nodes items cur (prev0, g) (mem_of_dictLookup _ _ _ hg) c hcmem
    have hcch : c.children = [] := by rw [hceq]; rfl
    have hcf : c.isCurrentPath = true := by
      have hcu : c.url = u := by rw [hceq]; rfl
      rw [hceq]
      show decide (u = cur) = true
      rw [← hcu, hcurl]
      simp
    rw [assembleChildren_cons_found _ cur cur [] g pre c post hs]
    have hkids : (match dictLookup cur (sortGroups (buildGroups items cur)) with
        | some g' => if cur ≠ cur then g' else c.children
        | none => c.children) = c.children := by
      cases dictLookup cur (sortGroups (buildGroups items cur)) with
      | none => rfl
      | some g' =>
        show (if cur ≠ cur then g' else c.children) = c.children
        rw [if_neg (fun hne => hne rfl)]
    rw [hkids, hcch, assembleChildren_nil]
    rw [markedCountL_append, markedCountL_cons, markedCount_mk, hcf]
    have hpre0 : markedCountL pre = 0 := by
      apply markedCountL_zero_of
      intro n hn
      refine group_node_unmarked items cur prev0 g hg n ?_ ?_
      · rw [hch_eq]; exact List.mem_append_left _ hn
      · exact splitAtUrl_pre cur g pre _ post hs n hn
    have hpost0 : markedCountL post = 0 := by
      apply markedCountL_zero_of
      intro n hn
      refine group_node_unmarked items cur prev0 g hg n ?_ ?_
      · rw [hch_eq]
        exact List.mem_append_right _ (List.mem_cons_of_mem _ hn)
      · have hnodup := sortedGroups_nodupUrls items cur hnd prev0 g hg
        rw [hch_eq] at hnodup
        rw [List.map_append, List.map_cons] at hnodup
        have hsub : (c.url :: post.map Node.url).Nodup :=
          hnodup.sublist (List.sublist_append_right _ _)
        rw [List.nodup_cons] at hsub
        intro he
        refine hsub.1 ?_
        rw [hcurl, ← he]
        exact List.mem_map_of_mem Node.url hn
    rw [hpre0, hpost0]
    rfl
  | step prev0 q rest hpar0 hlen0 hner0 hmem0 hnp0 hrest ih =>
    have hqne : q ≠ cur := by
      intro he
      rw [he] at hlen0
      omega
    obtain ⟨it, hit⟩ := Option.isSome_iff_exists.mp hmem0
    obtain ⟨g, hg, hnode⟩ := sortedGroups_exists items cur q it
      (mem_of_dictLookup _ _ _ hit) hner0 (isChildOf_shorter q cur hlen0 hcur)
    rw [hpar0] at hg
    rw [hg]
    show markedCountL (assembleChildren _ cur (q :: rest) g) = 1
    obtain ⟨pre, c, post, hs⟩ := splitAtUrl_found q g ⟨_, hnode, rfl⟩
    obtain ⟨hch_eq, hcurl⟩ := splitAtUrl_eq q g pre c post hs
    obtain ⟨gq, hgq⟩ := linkedChain_group_exists items cur hcur q rest hrest
    have hcf : c.isCurrentPath = false := by
      have hcmem : c ∈ g := by
        rw [hch_eq]
        exact List.mem_append_right _ (List.mem_cons_self _ _)
      obtain ⟨⟨u, itc, humem, hceq⟩, _, _, _⟩ :=
        sortedGroups_nodes items cur (prev0, g) (mem_of_dictLookup _ _ _ hg) c hcmem
      have hcu : c.url = u := by rw [hceq]; rfl
      rw [hceq]
      show decide (u = cur) = false
      apply decide_eq_false
      intro he
      exact hqne (by rw [← hcurl, hcu, he])
    rw [assembleChildren_cons_found _ cur q rest g pre c post hs]
    have hkids : (match dictLookup q (sortGroups (buildGroups items cur)) with
        | some g' => if q ≠ cur then g' else c.children
        | none => c.children) = gq := by
      rw [hgq]
      show (if q ≠ cur then gq else c.children) = gq
      rw [if_pos hqne]
    rw [hkids]
    rw [markedCountL_append, markedCountL_cons, markedCount_mk, hcf]
    have hnocur : ∀ n ∈ g, n.url ≠ cur := by
      intro n hn he
      obtain ⟨_, _, _, hparn⟩ :=
        sortedGroups_nodes items cur (prev0, g) (mem_of_dictLookup _ _ _ hg) n hn
      rw [he] at hparn
      exact hnp0 hparn
    have hpre0 : markedCountL pre = 0 := by
      apply markedCountL_zero_of
      intro n hn
      have hng : n ∈ g := by rw [hch_eq]; exact List.mem_append_left _ hn
      exact group_node_unmarked items cur prev0 g hg n hng (hnocur n hng)
    have hpost0 : markedCountL post = 0 := by
      apply markedCountL_zero_of
      intro n hn
      have hng : n ∈ g := by
        rw [hch_eq]
        exact List.mem_append_right _ (List.mem_cons_of_mem _ hn)
      exact group_node_unmarked items cur prev0 g hg n hng (hnocur n hng)
    rw [hpre0, hpost0]
    have hinner := ih
    rw [hgq] at hinner
    have hinner' : markedCountL (assembleChildren
        (sortGroups (buildGroups items cur)) cur rest gq) = 1 := hinner
    rw [hinner']
    rfl

theorem markedCountL_zero_of_allNodesL (p : Node → Bool) :
    ∀ (l : List Node),
    (∀ x ∈ l, allNodes p x = true → markedCount x = 0) →
    allNodesL p l = true → markedCountL l = 0 := by
  intro l
  induction l with
  | nil => intro _ _; rfl
  | cons n ns ih =>
    intro hall h
    rw [allNodesL_cons, Bool.and_eq_true] at h
    rw [markedCountL_cons, hall n (List.mem_cons_self n ns) h.1,
      ih (fun x hx => hall x (List.mem_cons_of_mem n hx)) h.2]

theorem markedCount_zero_of_allNodes (p : Node → Bool)
    (hp : ∀ n, p n = true → n.isCurrentPath = false) :
    ∀ (n : Node), allNodes p n = true → markedCount n = 0 := by
  apply Node.strongInduction
    (fun n => allNodes p n = true → markedCount n = 0)
  intro t u o b ch ih h
  rw [allNodes_mk, Bool.and_eq_true] at h
  have hb : b = false := hp _ h.1
  subst hb
  rw [markedCount_mk,
    markedCountL_zero_of_allNodesL p ch ih h.2]
  rfl

theorem markedCountO_some (n : Node) : markedCountO (some n) = markedCount n := rfl

/-- Part A of the amended C2: exactly one marked node when the current
path and every syntactic ancestor of it (other than the root) is a
registered eligible url. -/
theorem c2_exactly_one_marked (routes : List RouteEntry) (meta : MetaMap)
    (cur : Url) (hE : ∃ r ∈ routes, isEligible r = true)
    (hreg : ∀ q ∈ synAncestors cur,
      ∃ r ∈ routes, isEligible r = true ∧ r.url = q) :
    markedCountO (buildBreadcrumbTree routes meta cur) = 1 := by
  have hne := buildItems_ne_nil routes meta cur hE
  obtain ⟨ri, hri⟩ := ensureRoot_lookup_isSome (buildItems routes meta cur) cur
  by_cases hc : cur = ['/']
  · subst hc
    rw [buildBreadcrumbTree, if_neg hne, buildMain_root_sc _ _ hri]
    rfl
  · have hmemq : ∀ q ∈ synAncestors cur,
        (dictLookup q (ensureRoot (buildItems routes meta cur) cur)).isSome =
          true := by
      intro q hq
      have hqr : q ≠ ['/'] := walkFuel_mem_ne_root (fun _ => true) _ cur []
        (fun x hx => absurd hx (List.not_mem_nil x)) q hq
      rw [ensureRoot_lookup_other _ _ _ hqr]
      rw [dictLookup_isSome_iff]
      exact mem_keys_buildItems_of routes meta cur q (hreg q hq)
    have hwalk : walkFuel (fun p =>
        (dictLookup p (ensureRoot (buildItems routes meta cur) cur)).isSome)
        (cur.length + 2) cur [] = synAncestors cur := by
      rw [walkFuel_filter, List.nil_append]
      exact filter_eq_self_of_true _ _ (fun q hq => hmemq q hq)
    rw [buildBreadcrumbTree, if_neg hne, buildMain_notRoot _ _ _ hc hri, hwalk]
    rw [markedCountO_some, markedCount_mk]
    have hroot_flag : decide ((['/'] : Url) = cur) = false :=
      decide_eq_false (fun he => hc he.symm)
    rw [hroot_flag]
    have hchain := linkedChain_synAncestors
      (ensureRoot (buildItems routes meta cur) cur) cur.length cur
      (Nat.le_refl _) hc hmemq
    have hcount := assemble_marked_count
      (ensureRoot (buildItems routes meta cur) cur) cur hc
      (ensureRoot_keys_nodup _ _ (buildItems_keys_nodup routes meta cur))
      ((synAncestors cur).reverse) ['/'] hchain
    rw [hcount]
    rfl

/-- Part B of the amended C2: zero marked nodes when the current path is
neither the root nor a registered eligible url. -/
theorem c2_zero_marked (routes : List RouteEntry) (meta : MetaMap)
    (cur : Url) (hcur : cur ≠ ['/'])
    (hnr : ∀ r ∈ routes, isEligible r = true → r.url ≠ cur) :
    markedCountO (buildBreadcrumbTree routes meta cur) = 0 := by
  by_cases h0 : buildItems routes meta cur = []
  · rw [(buildBreadcrumbTree_none_iff routes meta cur).mpr h0]
    rfl
  · obtain ⟨ri, hri⟩ := ensureRoot_lookup_isSome (buildItems routes meta cur) cur
    have hgs : ∀ kv ∈ sortGroups (buildGroups
          (ensureRoot (buildItems routes meta cur) cur) cur), ∀ n ∈ kv.2,
        (fun n => !n.isCurrentPath) n = true ∧ n.children = [] := by
      intro kv hkv n hn
      obtain ⟨⟨u, it, humem, hneq⟩, hner, _, _⟩ :=
        sortedGroups_nodes _ cur kv hkv n hn
      have hu_ne : u ≠ cur := by
        rcases ensureRoot_mem _ _ _ humem with h1 | h1
        · obtain ⟨r, hr, he, hkv2⟩ := buildItems_mem routes meta cur _ h1
          have : u = r.url := (Prod.mk.injEq _ _ _ _ ▸ hkv2).1
          rw [this]
          exact hnr r hr he
        · have : u = ['/'] := (Prod.mk.injEq _ _ _ _ ▸ h1).1
          intro _
          apply hner
          rw [hneq]
          show u = ['/']
          exact this
      subst hneq
      refine ⟨?_, rfl⟩
      show (!(decide (u = cur))) = true
      rw [decide_eq_false hu_ne]
      rfl
    rw [buildBreadcrumbTree, if_neg h0, buildMain_notRoot _ _ _ hcur hri]
    rw [markedCountO_some, markedCount_mk]
    have hroot_flag : decide ((['/'] : Url) = cur) = false :=
      decide_eq_false (fun he => hcur he.symm)
    rw [hroot_flag]
    have hassembled : allNodesL (fun n => !n.isCurrentPath)
        (assembleChildren
          (sortGroups (buildGroups
            (ensureRoot (buildItems routes meta cur) cur) cur)) cur
          (walkFuel (fun p =>
            (dictLookup p (ensureRoot (buildItems routes meta cur) cur)).isSome)
            (cur.length + 2) cur []).reverse
          ((dictLookup ['/'] (sortGroups (buildGroups
            (ensureRoot (buildItems routes meta cur) cur) cur))).getD [])) =
        true := by
      apply assembleChildren_allNodes
      · intro t u o b ch1 ch2; rfl
      · exact hgs
      · cases hg : dictLookup ['/'] (sortGroups (buildGroups
            (ensureRoot (buildItems routes meta cur) cur) cur)) with
        | none => rfl
        | some g =>
          show allNodesL _ g = true
          exact allNodesL_of_childless _ g
            (fun n hn => hgs (['/'], g) (mem_of_dictLookup _ _ _ hg) n hn)
    rw [markedCountL_zero_of_allNodesL (fun n => !n.isCurrentPath) _
      (fun x _ => markedCount_zero_of_allNodes _ (fun n h => by simpa using h) x)
      hassembled]
    rfl

/-- C2 counterexample.  First conjunct: with routes `/`, `/a`, `/a/b/c`
registered and current path `/a/b/c` (a registered canonical GET url), the
returned tree contains ZERO nodes with `is_current_path = true` — the
`/a/b/c` node is grouped under the unregistered `/a/b` and never attached.
Second conjunct: with catalog `/a` and current path `/` (which matches no
registered route), the synthesized root is marked, so ONE node carries the
marker instead of zero. -/
theorem c2_counterexample :
    markedCountO (buildBreadcrumbTree [sampleRoute "/" "home",
      sampleRoute "/a" "a", sampleRoute "/a/b/c" "abc"] []
      (chars "/a/b/c")) = 0 ∧
    markedCountO (buildBreadcrumbTree [sampleRoute "/a" "a"] []
      (chars "/")) = 1 :=
  ⟨rfl, rfl⟩

/-- C2 (amended).  Exactly one node of the returned tree has
`is_current_path = true` when the current path and every syntactic
ancestor of it (other than `/`) is the canonical url of a registered
eligible GET route (with `/` itself always satisfying this trivially);
and zero nodes are marked when the current path is neither `/` nor a
registered eligible url. -/
theorem c2_single_current_marker :
    (∀ (routes : List RouteEntry) (meta : MetaMap) (cur : Url),
      (∃ r ∈ routes, isEligible r = true) →
      (∀ q ∈ synAncestors cur,
        ∃ r ∈ routes, isEligible r = true ∧ r.url = q) →
      markedCountO (buildBreadcrumbTree routes meta cur) = 1) ∧
    (∀ (routes : List RouteEntry) (meta : MetaMap) (cur : Url),
      cur ≠ ['/'] →
      (∀ r ∈ routes, isEligible r = true → r.url ≠ cur) →
      markedCountO (buildBreadcrumbTree routes meta cur) = 0) :=
  ⟨c2_exactly_one_marked, c2_zero_marked⟩

/-- Witness for C2 at concrete inputs: routes `/`, `/a`, `/a/b` with
current path `/a/b` (full chain registered, exactly one marker); catalog
`/a` with current path `/b/c` (unmatched, zero markers). -/
theorem c2_witness :
    ((∃ r ∈ [sampleRoute "/" "home", sampleRoute "/a" "a",
        sampleRoute "/a/b" "ab"], isEligible r = true) ∧
      (∀ q ∈ synAncestors (chars "/a/b"),
        ∃ r ∈ [sampleRoute "/" "home", sampleRoute "/a" "a",
          sampleRoute "/a/b" "ab"], isEligible r = true ∧ r.url = q) ∧
      markedCountO (buildBreadcrumbTree [sampleRoute "/" "home",
        sampleRoute "/a" "a", sampleRoute "/a/b" "ab"] []
        (chars "/a/b")) = 1) ∧
    ((chars "/b/c") ≠ ['/'] ∧
      (∀ r ∈ [sampleRoute "/a" "a"], isEligible r = true →
        r.url ≠ chars "/b/c") ∧
      markedCountO (buildBreadcrumbTree [sampleRoute "/a" "a"] []
        (chars "/b/c")) = 0) :=
  ⟨⟨⟨sampleRoute "/" "home", by decide⟩, by decide,
    c2_single_current_marker.1 [sampleRoute "/" "home", sampleRoute "/a" "a",
      sampleRoute "/a/b" "ab"] [] (chars "/a/b")
      ⟨sampleRoute "/" "home", by decide⟩ (by decide)⟩,
   ⟨by decide, by decide,
    c2_single_current_marker.2 [sampleRoute "/a" "a"] [] (chars "/b/c")
      (by decide) (by decide)⟩⟩

end FlaskBreadcrumb
